import Mathlib

/-!
Verification of the PyComputationalGraph repository: a computational-graph
library with a graph builder (`graph.py`), topological ordering, forward
propagation and reverse-mode backpropagation (`prop.py`), and a
finite-difference gradient checker (`grad_check.py`).

The development is a shallow embedding of the Python source.  Python's
mutable state (node children lists, the activation and gradient tables,
the perturbed parameter copies of the gradient checker) is modelled by
explicit state passing; Python exceptions are modelled by `Except Err`;
numpy float arrays are modelled by rational-valued tensors (a shape
together with row-major flat data), except for the gradient checker whose
L2 norms force real numbers.  Python's unbounded recursion in
`build_grad` and the unbounded `while` loop of `topological_sort` are
modelled with explicit fuel; the theorems show the fuel chosen by the
embedding is never exhausted on the well-formed graphs the API builds.
-/

namespace CompGraph

/-- A numpy `ndarray`: a shape and row-major flat data.  Values are
exact numbers (idealising IEEE floats; integers suffice, as every arithmetic step of the engine itself is a ring operation — the gradient checker, whose norms need square roots, is modelled over ℝ below). -/
structure Tensor where
  shape : List Nat
  data : List ℤ
  deriving Repr, DecidableEq

/-- Elementwise numpy addition (`A + B`).  The engine only ever adds
tensors of equal shape (the operation contract guarantees gradient
summands share the node's activation shape), for which this is numpy's
behaviour. -/
def Tensor.add (a b : Tensor) : Tensor :=
  ⟨a.shape, List.zipWith (· + ·) a.data b.data⟩

/-- `np.ones(shape)`. -/
def Tensor.ones (shape : List Nat) : Tensor :=
  ⟨shape, List.replicate shape.prod 1⟩

/-- A tensor is well formed when its flat data has exactly as many
elements as its shape prescribes. -/
def Tensor.wf (t : Tensor) : Prop :=
  t.data.length = t.shape.prod

instance (t : Tensor) : Decidable t.wf := by
  unfold Tensor.wf
  infer_instance

instance : Inhabited Tensor := ⟨⟨[], []⟩⟩

/-- A Python `dict` from node name to tensor (activation table,
output-gradient table, parameter assignment), as an insertion-ordered
association list with unique keys. -/
abbrev Table := List (String × Tensor)

/-- `dict` read: first (unique) binding of the key. -/
def tlookup (tbl : Table) (k : String) : Option Tensor :=
  tbl.lookup k

/-- `dict` write `tbl[k] = v`: replace in place if the key is present
(a Python dict update keeps the key's position), else append. -/
def tinsert (tbl : Table) (k : String) (v : Tensor) : Table :=
  if tbl.any (fun e => e.1 = k) then
    tbl.map (fun e => if e.1 = k then (k, v) else e)
  else
    tbl ++ [(k, v)]

/-- Every Python exception the embedded code can raise; constructors are
named after the raise sites. -/
inductive Err where
  /-- `graph.py` `add`: 'node name already in use'. -/
  | duplicateNode
  /-- `graph.py` `add`: 'Inputs do not match'. -/
  | arityMismatch
  /-- `topological_sort`: assert 'no input nodes found'. -/
  | noInputNodes
  /-- `Graph.forward`: 'missing value for parameter'. -/
  | missingParameter
  /-- `Graph.backward`: 'no output_table ... without having first performed forward propagation'. -/
  | noForwardPass
  /-- Python `KeyError`: dict lookup with an absent key (e.g. `self.nodes[n]`). -/
  | keyError
  /-- Python `AttributeError`: e.g. `assign` on a non-value op, `backward` on
  `OpValue`, `.children`/`.name` on a raw string parent, unassigned `OpValue.X`. -/
  | attributeError
  /-- Python `TypeError`: e.g. iterating `None` (`forward` before `done`),
  `reduce` of an empty list, `OpValue.forward` given positional args. -/
  | typeError
  /-- Python `ValueError`: `list.index` with an absent element. -/
  | valueError
  /-- Python `IndexError`: list index out of range. -/
  | indexError
  /-- Python `AssertionError` (the `parameter_index` range assert in `build_grad`,
  the shape assert in `gradient_check`). -/
  | assertionError
  /-- Fuel exhaustion: models Python diverging (infinite `while` loop or
  unbounded recursion); proved unreachable on graphs the builder produces. -/
  | outOfFuel
  deriving Repr, DecidableEq

/-- An operation with forward and backward passes (`OpSum`, `OpMatMul`,
`OpDot`, `OpSigmoid`, and any future capability implementation):
`num_inputs`, `forward(inputs)`, `backward(grad, inputs)`.  Inputs are
passed as one list, standing for Python's positional arguments. -/
structure Op where
  num_inputs : Nat
  forward : List Tensor → Tensor
  backward : Tensor → List Tensor → List Tensor

/-- The operation held by a node: either the terminal `OpValue` (assign /
forward, zero inputs, no backward) or a forward/backward operation. -/
inductive NodeOp where
  | value
  | op (o : Op)

/-- `op.num_inputs()`. -/
def NodeOp.num_inputs : NodeOp → Nat
  | .value => 0
  | .op o => o.num_inputs

/-- One element of the `inputs` sequence passed to `Graph.add`: either a
string (a name to resolve) or a direct node-object reference (nodes are
identified by their unique name). -/
inductive PRef where
  | str (s : String)
  | ref (name : String)
  deriving Repr, DecidableEq

/-- What `Graph.add` actually stores in `Node.parents`: a genuine node
object, or — when a string slips through the direct-reference branch — a
raw string stored as a parent. -/
inductive PObj where
  | node (name : String)
  | strObj (s : String)
  deriving Repr, DecidableEq

/-- `Node` of `graph.py`: name, operation, resolved parents.  The mutable
`children` lists live in a graph-level map built by `update_children`. -/
structure Node where
  name : String
  op : NodeOp
  parents : List PObj

/-- The name of the node a parent slot refers to, when it is a genuine
node object. -/
def PObj.nodeName : PObj → Option String
  | .node nm => some nm
  | .strObj _ => none

/-- The children map built by `update_children`: node name to the list of
consumer names, one occurrence per parent slot, in insertion order. -/
abbrev Kids := List (String × List String)

/-- Children of `nm` in the map (a node's `children` attribute). -/
def kidsOf (kids : Kids) (nm : String) : List String :=
  ((kids.find? (fun e => e.1 = nm)).map (fun e => e.2)).getD []

/-- Append `c` to the children list of the node named `nm` (no effect if
`nm` has no entry, i.e. the parent object is not a node of this graph). -/
def appendChild (kids : Kids) (nm c : String) : Kids :=
  kids.map (fun e => if e.1 = nm then (e.1, e.2 ++ [c]) else e)

/-- `update_children(nodes)` of `graph.py`: for every node, for every
parent `p`, append the node to `p.children`.  A raw string parent has no
`children` attribute, so Python raises `AttributeError`. -/
def update_children (nodes : List Node) : Except Err Kids :=
  nodes.foldlM
    (fun acc nd =>
      nd.parents.foldlM
        (fun acc p =>
          match p with
          | .node nm => Except.ok (appendChild acc nm nd.name)
          | .strObj _ => Except.error Err.attributeError)
        acc)
    (nodes.map (fun n => (n.name, ([] : List String))))

/-- The sink test inside `topological_sort`: a node is (relatively) a
sink when none of its children is still in the unsorted list (membership
is by node identity; names are unique, so by name). -/
def isSink (kids : Kids) (n : Node) (lst : List Node) : Bool :=
  (kidsOf kids n.name).all (fun c => !(lst.any (fun m => m.name = c)))

/-- One run of `for n in unsorted_internal_nodes:` from
`topological_sort`, with Python's list-iterator semantics: the iterator
keeps an index; `unsorted_internal_nodes.remove(n)` deletes the element
under the index, so the element sliding into its place is skipped.
`checked` holds the part of the current list before the iterator index,
`rest` the part from the index on.  Returns the list as it stands after
the pass together with the nodes removed, in removal order. -/
def forPass (kids : Kids) : List Node → List Node → List Node × List Node
  | checked, [] => (checked, [])
  | checked, n :: rest =>
    if isSink kids n (checked ++ n :: rest) then
      match rest with
      | [] => (checked, [n])
      | m :: rest' =>
        let (rem, out) := forPass kids (checked ++ [m]) rest'
        (rem, n :: out)
    else
      forPass kids (checked ++ [n]) rest

/-- The `while len(unsorted_internal_nodes) > 0` loop of
`topological_sort`, running full passes until the list empties.  Fuel
models Python's potential divergence (on a graph with a cycle the loop
never ends); each pass on a DAG removes at least one node, so
`unsorted.length` passes suffice — proved below. -/
def topoLoop (kids : Kids) : Nat → List Node → List Node
  | _, [] => []
  | 0, _ => []
  | fuel + 1, unsorted =>
    let (rem, out) := forPass kids [] unsorted
    out ++ topoLoop kids fuel rem

/-- `topological_sort(nodes)` of `graph.py`: split off the zero-parent
parameter nodes, then repeatedly remove relative sinks from the internal
nodes and reverse the removal order.  Asserts at least one parameter node
exists. -/
def topological_sort (nodes : List Node) (kids : Kids) :
    Except Err (List Node × List Node) :=
  let parameter_nodes := nodes.filter (fun n => n.parents.isEmpty)
  if parameter_nodes.isEmpty then
    Except.error Err.noInputNodes
  else
    let unsorted := nodes.filter (fun n => !n.parents.isEmpty)
    Except.ok (parameter_nodes, (topoLoop kids unsorted.length unsorted).reverse)

/-- `Graph` of `graph.py`: insertion-ordered nodes (reordered by `done`),
the parameter-node list and children map set by `done` (`None` before),
and the activation table cached by `forward` (`None` before). -/
structure Graph where
  nodes : List Node
  parameter_nodes : Option (List Node) := none
  kids : Option Kids := none
  output_table : Option Table := none

/-- The empty graph produced by `Graph.__init__`. -/
def Graph.empty : Graph := { nodes := [] }

/-- Find a node by name in `self.nodes` (dict read). -/
def findNode (nodes : List Node) (nm : String) : Option Node :=
  nodes.find? (fun n => n.name = nm)

/-- The parent-resolution step of `Graph.add` (lines 110–116): with a
non-empty `inputs` whose first element is a string, every element is
looked up by name in `self.nodes` (so a non-string element, used as a
dict key, raises `KeyError`, as does an unknown name); otherwise the
sequence is used directly, element by element, a direct reference
becoming the node object and a string staying a raw string. -/
def resolveInputs (nodes : List Node) (inputs : List PRef) :
    Except Err (List PObj) :=
  match inputs with
  | PRef.str _ :: _ =>
    inputs.mapM (fun r =>
      match r with
      | PRef.str s =>
        match findNode nodes s with
        | some nd => Except.ok (PObj.node nd.name)
        | none => Except.error Err.keyError
      | PRef.ref _ => Except.error Err.keyError)
  | _ => Except.ok (inputs.map (fun r =>
      match r with
      | PRef.str s => PObj.strObj s
      | PRef.ref nm => PObj.node nm))

/-- Parent resolution including the `inputs is None` case, where the
`Node` constructor turns `None` into an empty parent list. -/
def resolveOpt (nodes : List Node) : Option (List PRef) → Except Err (List PObj)
  | none => Except.ok []
  | some l => resolveInputs nodes l

/-- `Graph.add(op, name, inputs)`: reject a duplicate name, then reject
an arity mismatch (`inputs is None` must pair with zero declared inputs,
otherwise the length must equal `op.num_inputs()`), then resolve parents
and register the node. -/
def Graph.add (g : Graph) (op : NodeOp) (name : String)
    (inputs : Option (List PRef) := none) : Except Err Graph := do
  if g.nodes.any (fun n => n.name = name) then
    throw Err.duplicateNode
  else if !(inputs.isNone && op.num_inputs == 0
      || inputs.isSome && op.num_inputs == (inputs.getD []).length) then
    throw Err.arityMismatch
  else
    let input_nodes ← resolveOpt g.nodes inputs
    Except.ok { g with nodes := g.nodes ++ [⟨name, op, input_nodes⟩] }

/-- `Graph.done()`: build the children lists, topologically sort, and
reorder the node dictionary as parameter nodes first, then internal
nodes in topological order. -/
def Graph.done (g : Graph) : Except Err Graph := do
  let kids ← update_children g.nodes
  let (params, internal) ← topological_sort g.nodes kids
  Except.ok { g with
    nodes := params ++ internal
    parameter_nodes := some params
    kids := some kids }

/-- The `for name, tensor in parameter_table.items(): nodes[name].op.assign(tensor)`
loop opening `prop`: every key must name a node of the graph (else
`KeyError`) whose op is `OpValue` (else `AttributeError`: no `assign`).
Its effect — the assigned value an `OpValue.forward` later returns — is
read off the table itself, keys being unique. -/
def assignParams (nodes : List Node) : List (String × Tensor) → Except Err Unit
  | [] => Except.ok ()
  | (nm, _) :: rest =>
    match findNode nodes nm with
    | none => Except.error Err.keyError
    | some nd =>
      match nd.op with
      | .value => assignParams nodes rest
      | .op _ => Except.error Err.attributeError

/-- The propagation loop of `prop`: for each node in order, gather the
parents' activations from the table (`output_table[p.name]`; a raw
string parent has no `.name`, an absent key raises `KeyError`) and apply
the node's forward operation.  An `OpValue` returns its assigned value
(unassigned: `AttributeError`; called with positional args, i.e. with
parents: `TypeError`). -/
def propLoop (ptable : List (String × Tensor)) :
    List Node → Table → Except Err Table
  | [], tbl => Except.ok tbl
  | nd :: rest, tbl => do
    let args ← nd.parents.mapM (fun p =>
      match p with
      | PObj.node nm =>
        match tlookup tbl nm with
        | some t => Except.ok t
        | none => Except.error Err.keyError
      | PObj.strObj _ => Except.error Err.attributeError)
    let act ←
      match nd.op with
      | .value =>
        if args.isEmpty then
          match tlookup ptable nd.name with
          | some t => Except.ok t
          | none => Except.error Err.attributeError
        else Except.error Err.typeError
      | .op o => Except.ok (o.forward args)
    propLoop ptable rest (tinsert tbl nd.name act)

/-- `prop(nodes, parameter_table)` of `prop.py`: assign the parameter
values, propagate caching every activation, and return the activation of
the last node together with the table. -/
def prop (nodes : List Node) (ptable : List (String × Tensor)) :
    Except Err (Tensor × Table) := do
  assignParams nodes ptable
  let tbl ← propLoop ptable nodes []
  match nodes.getLast? with
  | none => Except.error Err.indexError
  | some nd =>
    match tlookup tbl nd.name with
    | some t => Except.ok (t, tbl)
    | none => Except.error Err.keyError

/-- `Graph.forward(parameter_table)`: before `done`, `parameter_nodes`
is `None` and iterating it raises `TypeError`; then every parameter node
must have a value (else the 'missing value for parameter' exception);
then `prop` runs and its table is cached on the graph. -/
def Graph.forward (g : Graph) (ptable : List (String × Tensor)) :
    Except Err (Tensor × Table × Graph) := do
  match g.parameter_nodes with
  | none => Except.error Err.typeError
  | some params =>
    if params.all (fun p => ptable.any (fun e => e.1 = p.name)) then do
      let (out, tbl) ← prop g.nodes ptable
      Except.ok (out, tbl, { g with output_table := some tbl })
    else
      Except.error Err.missingParameter

/-- First index of `node` in a consumer's parent list
(`consumer_node.inputs().index(node)`): comparison is by node identity
(by name, names being unique); a raw string parent never equals a node. -/
def indexOfNode (nm : String) (ps : List PObj) : Option Nat :=
  ps.findIdx? (fun p => p = PObj.node nm)

/-- The table `parameter_grad_table`: consumer name to the full list of
gradients `op.backward` produced for its inputs. -/
abbrev PGTable := List (String × List Tensor)

/-- State threaded through `build_grad`: the two mutable dictionaries of
`backprop`. -/
structure BPState where
  pg : PGTable
  og : Table

/-- `dict` write for the parameter-gradient table. -/
def pginsert (tbl : PGTable) (k : String) (v : List Tensor) : PGTable :=
  if tbl.any (fun e => e.1 = k) then
    tbl.map (fun e => if e.1 = k then (k, v) else e)
  else
    tbl ++ [(k, v)]

/-- `reduce(lambda x, y: x + y, l)`: `TypeError` on an empty list. -/
def reduceSum : List Tensor → Except Err Tensor
  | [] => Except.error Err.typeError
  | t :: ts => Except.ok (ts.foldl Tensor.add t)

/-- The `for consumer_node in node.consumers():` loop of `build_grad`,
collecting `consumer_gradients` and threading the two tables; `bg` is
the recursive call into `build_grad` at the remaining recursion depth.
For each consumer: find this node's first index among the consumer's
inputs (`ValueError` if absent); if the consumer's input gradients are
cached, pick the component (`IndexError` out of range); else gather the
consumer's input activations, recursively obtain the consumer's output
gradient, call the consumer op's `backward` (an `OpValue` has none:
`AttributeError`), cache the list, check the index against its length
(the `assert`), and pick the component. -/
def consumerLoop (nodes : List Node) (ot : Table)
    (bg : Node → BPState → Except Err (Tensor × BPState)) (node : Node) :
    List String → BPState → Except Err (List Tensor × BPState)
  | [], st => Except.ok ([], st)
  | cnm :: rest, st => do
    match findNode nodes cnm with
    | none => Except.error Err.keyError
    | some consumer =>
      match indexOfNode node.name consumer.parents with
      | none => Except.error Err.valueError
      | some idx => do
        let (grad, st') ←
          match (st.pg.find? (fun e => e.1 = consumer.name)).map (fun e => e.2) with
          | some grads =>
            if h : idx < grads.length then
              Except.ok (grads.get ⟨idx, h⟩, st)
            else Except.error Err.indexError
          | none => do
            let acts ← consumer.parents.mapM (fun p =>
              match p with
              | PObj.node nm =>
                match tlookup ot nm with
                | some t => Except.ok t
                | none => Except.error Err.keyError
              | PObj.strObj _ => Except.error Err.attributeError)
            let (cog, st₁) ← bg consumer st
            match consumer.op with
            | .value => Except.error Err.attributeError
            | .op o =>
              let grads := o.backward cog acts
              let st₂ := { st₁ with pg := pginsert st₁.pg consumer.name grads }
              if h : idx < grads.length then
                Except.ok (grads.get ⟨idx, h⟩, st₂)
              else Except.error Err.assertionError
        let (grads, st'') ← consumerLoop nodes ot bg node rest st'
        Except.ok (grad :: grads, st'')

/-- `build_grad(node, output_table, parameter_grad_table, output_grad_table)`
of `prop.py`.  Memoized: a node already in the output-gradient table
returns its entry.  Otherwise one gradient is collected per consumer
occurrence (one occurrence per parent slot) and the gradient at the
node's output is their sum.  Fuel bounds the recursion depth; its
exhaustion models Python's unbounded recursion and is proved unreachable
for the fuel `backprop` supplies. -/
def build_grad (nodes : List Node) (kids : Kids) (ot : Table) :
    Nat → Node → BPState → Except Err (Tensor × BPState)
  | 0, _, _ => Except.error Err.outOfFuel
  | fuel + 1, node, st =>
    match tlookup st.og node.name with
    | some g => Except.ok (g, st)
    | none => do
      let (grads, st') ←
        consumerLoop nodes ot (build_grad nodes kids ot fuel) node
          (kidsOf kids node.name) st
      let s ← reduceSum grads
      Except.ok (s, { st' with og := tinsert st'.og node.name s })

/-- `backprop(nodes, output_table)` of `prop.py`: seed every sink's
output gradient with an all-ones tensor shaped like its activation
(`KeyError` if the activation is missing), then run `build_grad` on
every node.  The fuel handed to each call, one more than the node count,
exceeds any path length to a sink in a finalized graph. -/
def backprop (nodes : List Node) (kids : Kids) (ot : Table) :
    Except Err Table := do
  let sinks := nodes.filter (fun n => (kidsOf kids n.name).isEmpty)
  let og₀ ← sinks.foldlM
    (fun og n =>
      match tlookup ot n.name with
      | some t => Except.ok (tinsert og n.name (Tensor.ones t.shape))
      | none => Except.error Err.keyError)
    ([] : Table)
  let st ← nodes.foldlM
    (fun st n => do
      let (_, st') ← build_grad nodes kids ot (nodes.length + 1) n st
      Except.ok st')
    ({ pg := [], og := og₀ } : BPState)
  Except.ok st.og

/-- `Graph.backward()`: requires a cached activation table (the explicit
'no output_table' exception) and hence a prior `done` (which set the
children lists). -/
def Graph.backward (g : Graph) : Except Err Table :=
  match g.output_table with
  | none => Except.error Err.noForwardPass
  | some ot =>
    match g.kids with
    | none => Except.error Err.typeError
    | some kids => backprop g.nodes kids ot

/-- `arrays_nd_array_1d(arrays)` of `grad_check.py`: flatten every ND
array (row-major, which is exactly the stored flat data) and
concatenate. -/
def arrays_nd_array_1d (arrays : List Tensor) : List ℤ :=
  (arrays.map (fun t => t.data)).flatten

/-- `size_from_shape(shape)`: the product of the dimensions, by the
explicit loop `size = size * d` starting from 1. -/
def size_from_shape (shape : List Nat) : Nat :=
  shape.foldl (fun size d => size * d) 1

/-- The `for shape in shapes:` loop of `array_1d_arrays_nd`, with the
running start index threaded explicitly.  A Python slice past the end of
the array is silently short and `reshape` then raises `ValueError`. -/
def array_1d_loop (array : List ℤ) : List (List Nat) → Nat → Except Err (List Tensor)
  | [], _ => Except.ok []
  | shape :: shapes, index => do
    let size := size_from_shape shape
    let flat_array := ((array.drop index).take size)
    if flat_array.length = size then do
      let rest ← array_1d_loop array shapes (index + size)
      Except.ok (⟨shape, flat_array⟩ :: rest)
    else
      Except.error Err.valueError

/-- `array_1d_arrays_nd(array, shapes)` of `grad_check.py`: cut the flat
vector into consecutive segments sized by each shape and reshape each,
starting from index 0. -/
def array_1d_arrays_nd (array : List ℤ) (shapes : List (List Nat)) :
    Except Err (List Tensor) :=
  array_1d_loop array shapes 0

/-- Real-valued vectors for the gradient checker: numpy 1-D float
arrays, idealised over ℝ because `np.linalg.norm` takes a square root. -/
abbrev RVec := List ℝ

/-- `np.linalg.norm(v)`: the L2 norm. -/
noncomputable def norm2 (v : RVec) : ℝ :=
  Real.sqrt ((v.map (fun x => x * x)).sum)

/-- One iteration of the perturbation loop of `gradient_check`, acting
on the array state `(parameters, grad, fd_grad)`: copy the parameter
array twice, shift component `i` of each copy, evaluate the forward
function on both, and write the centered difference into `fd_grad[i]`.
The originals are returned as the loop body leaves them. -/
noncomputable def gcStep (f : RVec → ℝ) (perturbation : ℝ) (i : Nat)
    (st : RVec × RVec × RVec) : RVec × RVec × RVec :=
  let parameters := st.1
  let grad := st.2.1
  let fd_grad := st.2.2
  let parameter_min := (parameters.set i (parameters.getD i 0 - perturbation))
  let parameter_max := (parameters.set i (parameters.getD i 0 + perturbation))
  (parameters, grad,
    fd_grad.set i ((f parameter_max - f parameter_min) / (2 * perturbation)))

/-- `gradient_check(parameters, grad, forward_func, perturbation,
equality_threshold)` of `grad_check.py`, with the final contents of the
two argument arrays returned alongside the result so that mutation (or
its absence) is observable.  The shape assert compares the 1-D shapes;
`fd_grad = np.zeros(grad.shape)`; the loop runs over
`range(fd_grad.shape[0])`; the returned value is
`‖fd_grad − grad‖ / (‖fd_grad‖ + ‖grad‖)` — the threshold argument is
never consulted (the comparison in the source is commented out). -/
noncomputable def gradient_check_st (parameters grad : RVec) (forward_func : RVec → ℝ)
    (perturbation : ℝ) (equality_threshold : ℝ) :
    Except Err ℝ × RVec × RVec :=
  if parameters.length = grad.length then
    let fd0 : RVec := List.replicate grad.length 0
    let st := (List.range fd0.length).foldl
      (fun st i => gcStep forward_func perturbation i st)
      (parameters, grad, fd0)
    let fd_grad := st.2.2
    let numerator := norm2 (List.zipWith (fun a b => a - b) fd_grad st.2.1)
    let denominator := norm2 fd_grad + norm2 st.2.1
    (Except.ok (numerator / denominator), st.1, st.2.1)
  else
    (Except.error Err.assertionError, parameters, grad)

/-- `gradient_check` proper: the returned relative difference. -/
noncomputable def gradient_check (parameters grad : RVec) (forward_func : RVec → ℝ)
    (perturbation : ℝ) (equality_threshold : ℝ) : Except Err ℝ :=
  (gradient_check_st parameters grad forward_func perturbation equality_threshold).1

/-- `OpSum` of `operations.py`: two inputs, elementwise add; both
backward gradients are the incoming gradient unchanged. -/
def OpSum : Op where
  num_inputs := 2
  forward := fun args =>
    match args with
    | [A, B] => A.add B
    | _ => default
  backward := fun grad args =>
    match args with
    | [_, _] => [grad, grad]
    | _ => []

/-- A test operation (the operation set is pluggable): one input,
doubling forward, doubling backward. -/
def opDouble : Op where
  num_inputs := 1
  forward := fun args =>
    match args with
    | [A] => A.add A
    | _ => default
  backward := fun grad args =>
    match args with
    | [_] => [grad.add grad]
    | _ => []

/-- A test operation: one input, tripling forward and backward. -/
def opTriple : Op where
  num_inputs := 1
  forward := fun args =>
    match args with
    | [A] => (A.add A).add A
    | _ => default
  backward := fun grad args =>
    match args with
    | [_] => [(grad.add grad).add grad]
    | _ => []

/-- A test operation with two inputs whose two backward components
differ (`[grad, 3·grad]`), to observe which parent slot's component the
engine uses. -/
def opAsym : Op where
  num_inputs := 2
  forward := fun args =>
    match args with
    | [A, B] => A.add B
    | _ => default
  backward := fun grad args =>
    match args with
    | [_, _] => [grad, (grad.add grad).add grad]
    | _ => []

/-- The node names of a graph, in order. -/
def nodeNames (nodes : List Node) : List String :=
  nodes.map (fun n => n.name)

/-! ### The children map built by `update_children` -/

/-- Whether a parent slot holds a genuine node object. -/
def PObj.isNodeB : PObj → Bool
  | .node _ => true
  | .strObj _ => false

/-- Every parent slot of every node holds a genuine node object (true of
any graph whose parents were resolved by name). -/
def cleanParents (nodes : List Node) : Bool :=
  nodes.all (fun nd => nd.parents.all (fun p => p.isNodeB))

/-- The children `update_children` gives a node: one occurrence of each
consumer per parent slot referring to the node, consumers in list
order. -/
def childrenSpec (nodes : List Node) (nm : String) : List String :=
  nodes.flatMap (fun c =>
    (c.parents.filter (fun p => p = PObj.node nm)).map (fun _ => c.name))

/-- A key is present in a children map. -/
def hasKey (kids : Kids) (nm : String) : Bool :=
  kids.any (fun e => e.1 = nm)

theorem appendChild_key_pred (nm' c nm : String) :
    ((fun e : String × List String => decide (e.1 = nm)) ∘
        (fun e => if e.1 = nm' then (e.1, e.2 ++ [c]) else e)) =
      (fun e : String × List String => decide (e.1 = nm)) := by
  funext e
  by_cases h : e.1 = nm' <;> simp [h]

theorem hasKey_appendChild (kids : Kids) (nm' c nm : String) :
    hasKey (appendChild kids nm' c) nm = hasKey kids nm := by
  unfold hasKey appendChild
  rw [List.any_map, appendChild_key_pred]

theorem find?_appendChild (kids : Kids) (nm' c nm : String) :
    (appendChild kids nm' c).find? (fun e => e.1 = nm) =
      (kids.find? (fun e => e.1 = nm)).map
        (fun e => if e.1 = nm' then (e.1, e.2 ++ [c]) else e) := by
  unfold appendChild
  rw [List.find?_map, appendChild_key_pred]

theorem hasKey_iff_find? (kids : Kids) (nm : String) :
    hasKey kids nm = true ↔ ∃ e, kids.find? (fun e => e.1 = nm) = some e := by
  unfold hasKey
  rw [List.any_eq_true]
  constructor
  · rintro ⟨e, he, hnm⟩
    have : (kids.find? (fun e => e.1 = nm)).isSome := by
      rw [List.find?_isSome]
      exact ⟨e, he, hnm⟩
    exact Option.isSome_iff_exists.mp this
  · rintro ⟨e, he⟩
    have hp := List.find?_some he
    exact ⟨e, List.mem_of_find?_eq_some he, hp⟩

theorem kidsOf_appendChild (kids : Kids) (nm' c nm : String) :
    kidsOf (appendChild kids nm' c) nm =
      if nm = nm' ∧ hasKey kids nm = true then kidsOf kids nm ++ [c]
      else kidsOf kids nm := by
  unfold kidsOf
  rw [find?_appendChild]
  cases hf : kids.find? (fun e => e.1 = nm) with
  | none =>
    have hk : ¬(hasKey kids nm = true) := by
      rw [hasKey_iff_find?]
      rintro ⟨e, he⟩
      rw [hf] at he
      exact Option.noConfusion he
    rw [if_neg (fun h => hk h.2)]
    rfl
  | some e =>
    have he1 : e.1 = nm := by simpa using List.find?_some hf
    have hk : hasKey kids nm = true := (hasKey_iff_find? kids nm).mpr ⟨e, hf⟩
    by_cases hnm : nm = nm'
    · rw [if_pos ⟨hnm, hk⟩]
      simp [he1, ← hnm]
    · rw [if_neg (fun h => hnm h.1)]
      have : ¬(e.1 = nm') := fun h => hnm (he1 ▸ h ▸ rfl)
      simp [this]

/-- The effect of one parent slot on the children map: a node-object
parent receives the consumer as a child (the raw-string case never runs
under `update_children`'s success, which this step mirrors only there). -/
def ucStep (c : String) (acc : Kids) (p : PObj) : Kids :=
  match p with
  | .node nm => appendChild acc nm c
  | .strObj _ => acc

/-- The pure value `update_children` computes when it succeeds. -/
def ucPure (nodes : List Node) : Kids :=
  nodes.foldl (fun acc nd => nd.parents.foldl (ucStep nd.name) acc)
    (nodes.map (fun n => (n.name, ([] : List String))))

theorem inner_foldlM_ok (c : String) (ps : List PObj) (acc : Kids)
    (h : ∀ p ∈ ps, p.isNodeB = true) :
    ps.foldlM
      (fun acc p =>
        match p with
        | PObj.node nm => Except.ok (appendChild acc nm c)
        | PObj.strObj _ => Except.error Err.attributeError)
      acc = Except.ok (ps.foldl (ucStep c) acc) := by
  induction ps generalizing acc with
  | nil => rfl
  | cons p ps ih =>
    cases p with
    | node nm =>
      simp only [List.foldlM_cons, List.foldl_cons]
      rw [show (Except.ok (appendChild acc nm c) : Except Err Kids) >>=
          (fun acc => ps.foldlM _ acc) = ps.foldlM _ (appendChild acc nm c) from rfl]
      exact ih (appendChild acc nm c) (fun q hq => h q (List.mem_cons_of_mem _ hq))
    | strObj s =>
      exact absurd (h (PObj.strObj s) (List.mem_cons_self _ _)) (by simp [PObj.isNodeB])

theorem outer_foldlM_ok (ns : List Node) (acc : Kids)
    (h : ∀ nd ∈ ns, ∀ p ∈ nd.parents, p.isNodeB = true) :
    ns.foldlM
      (fun acc nd =>
        nd.parents.foldlM
          (fun acc p =>
            match p with
            | PObj.node nm => Except.ok (appendChild acc nm nd.name)
            | PObj.strObj _ => Except.error Err.attributeError)
          acc)
      acc =
      Except.ok (ns.foldl (fun acc nd => nd.parents.foldl (ucStep nd.name) acc) acc) := by
  induction ns generalizing acc with
  | nil => rfl
  | cons nd ns ih =>
    simp only [List.foldlM_cons, List.foldl_cons]
    rw [inner_foldlM_ok nd.name nd.parents acc (h nd (List.mem_cons_self _ _))]
    rw [show (Except.ok (nd.parents.foldl (ucStep nd.name) acc) : Except Err Kids) >>=
        (fun acc => ns.foldlM _ acc) =
        ns.foldlM _ (nd.parents.foldl (ucStep nd.name) acc) from rfl]
    exact ih (nd.parents.foldl (ucStep nd.name) acc)
      (fun m hm => h m (List.mem_cons_of_mem _ hm))

theorem update_children_eq_ucPure (nodes : List Node)
    (hclean : cleanParents nodes = true) :
    update_children nodes = Except.ok (ucPure nodes) := by
  unfold update_children ucPure
  exact outer_foldlM_ok nodes _ (fun nd hnd p hp =>
    List.all_eq_true.mp (by simpa using List.all_eq_true.mp hclean nd hnd) p hp)

theorem hasKey_ucStep (c : String) (acc : Kids) (p : PObj) (nm : String) :
    hasKey (ucStep c acc p) nm = hasKey acc nm := by
  cases p with
  | node pn => exact hasKey_appendChild acc pn c nm
  | strObj s => rfl

theorem hasKey_parents_fold (c : String) (ps : List PObj) (acc : Kids) (nm : String) :
    hasKey (ps.foldl (ucStep c) acc) nm = hasKey acc nm := by
  induction ps generalizing acc with
  | nil => rfl
  | cons p ps ih => rw [List.foldl_cons, ih, hasKey_ucStep]

theorem kidsOf_parents_fold (c : String) (ps : List PObj) (acc : Kids) (nm : String) :
    kidsOf (ps.foldl (ucStep c) acc) nm =
      kidsOf acc nm ++
        (if hasKey acc nm = true then
          (ps.filter (fun p => p = PObj.node nm)).map (fun _ => c)
        else []) := by
  induction ps generalizing acc with
  | nil => simp
  | cons p ps ih =>
    rw [List.foldl_cons, ih, hasKey_ucStep]
    cases p with
    | node pn =>
      by_cases hk : hasKey acc nm = true
      · by_cases hnm : nm = pn
        · rw [if_pos hk, if_pos hk]
          simp only [ucStep, kidsOf_appendChild]
          rw [if_pos (And.intro hnm hk)]
          have heq : (PObj.node pn : PObj) = PObj.node nm := by rw [hnm]
          rw [List.filter_cons_of_pos (by simp [heq])]
          simp [List.append_assoc]
        · rw [if_pos hk, if_pos hk]
          simp only [ucStep, kidsOf_appendChild]
          rw [if_neg (fun h => hnm h.1)]
          have hne : ¬((PObj.node pn : PObj) = PObj.node nm) := by
            intro h
            exact hnm (by injection h with h'; rw [h'])
          rw [List.filter_cons_of_neg (by simpa using hne)]
      · rw [if_neg hk, if_neg hk]
        simp only [ucStep, kidsOf_appendChild]
        rw [if_neg (fun h => hk h.2)]
    | strObj s =>
      have hne : ¬((PObj.strObj s : PObj) = PObj.node nm) := by intro h; cases h
      simp only [ucStep]
      rw [List.filter_cons_of_neg (by simp [hne])]

theorem hasKey_nodes_fold (ns : List Node) (acc : Kids) (nm : String) :
    hasKey (ns.foldl (fun acc nd => nd.parents.foldl (ucStep nd.name) acc) acc) nm =
      hasKey acc nm := by
  induction ns generalizing acc with
  | nil => rfl
  | cons nd ns ih => rw [List.foldl_cons, ih, hasKey_parents_fold]

theorem kidsOf_nodes_fold (ns : List Node) (acc : Kids) (nm : String) :
    kidsOf (ns.foldl (fun acc nd => nd.parents.foldl (ucStep nd.name) acc) acc) nm =
      kidsOf acc nm ++ (if hasKey acc nm = true then childrenSpec ns nm else []) := by
  induction ns generalizing acc with
  | nil => simp [childrenSpec]
  | cons nd ns ih =>
    rw [List.foldl_cons, ih, hasKey_parents_fold, kidsOf_parents_fold]
    by_cases hk : hasKey acc nm = true
    · rw [if_pos hk, if_pos hk, if_pos hk, List.append_assoc]
      rfl
    · rw [if_neg hk, if_neg hk, if_neg hk]
      simp

theorem kidsOf_init (nodes : List Node) (nm : String) :
    kidsOf (nodes.map (fun n => (n.name, ([] : List String)))) nm = [] := by
  unfold kidsOf
  induction nodes with
  | nil => rfl
  | cons nd ns ih =>
    simp only [List.map_cons, List.find?_cons]
    by_cases h : nd.name = nm
    · simp [h]
    · simp only [show (decide ((nd.name, ([] : List String)).1 = nm)) = false by
        simpa using h]
      exact ih

theorem hasKey_init (nodes : List Node) (nm : String) :
    hasKey (nodes.map (fun n => (n.name, ([] : List String)))) nm =
      nodes.any (fun n => n.name = nm) := by
  unfold hasKey
  induction nodes with
  | nil => rfl
  | cons nd ns ih => simp only [List.map_cons, List.any_cons, ih]

/-- What `update_children` builds on a graph whose parents are all
genuine node objects: it succeeds, every graph node's children list is
one consumer occurrence per referring parent slot in consumer order, and
foreign names have no children entry. -/
theorem update_children_spec (nodes : List Node)
    (hclean : cleanParents nodes = true) :
    ∃ kids, update_children nodes = Except.ok kids ∧
      (∀ nm, kidsOf kids nm =
        (if nodes.any (fun n => n.name = nm) = true then childrenSpec nodes nm
         else [])) := by
  refine ⟨ucPure nodes, update_children_eq_ucPure nodes hclean, fun nm => ?_⟩
  unfold ucPure
  rw [kidsOf_nodes_fold, kidsOf_init, hasKey_init]
  simp

/-! ### The topological-sort pass -/

theorem forPass_nil (kids : Kids) (checked : List Node) :
    forPass kids checked [] = (checked, []) := rfl

theorem forPass_sink_last (kids : Kids) (checked : List Node) (n : Node)
    (h : isSink kids n (checked ++ n :: []) = true) :
    forPass kids checked [n] = (checked, [n]) := by
  simp [forPass, h]

theorem forPass_sink_skip (kids : Kids) (checked : List Node) (n m : Node)
    (rest' : List Node)
    (h : isSink kids n (checked ++ n :: m :: rest') = true) :
    forPass kids checked (n :: m :: rest') =
      ((forPass kids (checked ++ [m]) rest').1,
        n :: (forPass kids (checked ++ [m]) rest').2) := by
  cases hfp : forPass kids (checked ++ [m]) rest' with
  | mk rem' out' => simp [forPass, h, hfp]

theorem forPass_notsink (kids : Kids) (checked : List Node) (n : Node)
    (rest : List Node)
    (h : isSink kids n (checked ++ n :: rest) = false) :
    forPass kids checked (n :: rest) = forPass kids (checked ++ [n]) rest := by
  cases rest with
  | nil => simp [forPass, h]
  | cons m rest' => simp [forPass, h]

theorem forPass_perm (kids : Kids) (checked rest : List Node) :
    ∀ rem out, forPass kids checked rest = (rem, out) →
      (checked ++ rest).Perm (rem ++ out) := by
  induction checked, rest using forPass.induct kids with
  | case1 checked =>
    intro rem out h
    rw [forPass_nil] at h
    cases h
    exact List.Perm.refl _
  | case2 checked n hsink =>
    intro rem out h
    rw [forPass_sink_last kids checked n hsink] at h
    cases h
    exact List.Perm.refl _
  | case3 checked n m rest' rem' out' heq hsink ih =>
    intro rem out h
    rw [forPass_sink_skip kids checked n m rest' hsink, heq] at h
    cases h
    have hperm := ih rem' out' heq
    rw [List.append_assoc] at hperm
    show (checked ++ n :: (m :: rest')).Perm (rem' ++ n :: out')
    exact List.Perm.trans List.perm_middle
      (List.Perm.trans (hperm.cons n) List.perm_middle.symm)
  | case4 checked n rest hsink ih =>
    intro rem out h
    rw [forPass_notsink kids checked n rest (by simpa using hsink)] at h
    have hperm := ih rem out h
    rw [List.append_assoc] at hperm
    simpa using hperm

/-- The removal-order relation the pass establishes: a node removed
before another is no parent of it — none of its children is the later
one. -/
def RemOrd (kids : Kids) (x y : Node) : Prop :=
  ∀ c ∈ kidsOf kids x.name, y.name ≠ c

theorem isSink_iff (kids : Kids) (n : Node) (lst : List Node) :
    isSink kids n lst = true ↔
      ∀ c ∈ kidsOf kids n.name, ∀ m ∈ lst, m.name ≠ c := by
  unfold isSink
  rw [List.all_eq_true]
  constructor
  · intro h c hc m hm
    have h2 := h c hc
    simp only [Bool.not_eq_true', List.any_eq_false, decide_eq_true_eq] at h2
    exact h2 m hm
  · intro h c hc
    simp only [Bool.not_eq_true', List.any_eq_false, decide_eq_true_eq]
    exact fun m hm => h c hc m hm

theorem forPass_out_ord (kids : Kids) (checked rest : List Node) :
    ∀ rem out, forPass kids checked rest = (rem, out) →
      out.Pairwise (RemOrd kids) ∧
        ∀ x ∈ out, ∀ m ∈ rem, RemOrd kids x m := by
  induction checked, rest using forPass.induct kids with
  | case1 checked =>
    intro rem out h
    rw [forPass_nil] at h
    cases h
    exact ⟨List.Pairwise.nil, by simp⟩
  | case2 checked n hsink =>
    intro rem out h
    rw [forPass_sink_last kids checked n hsink] at h
    cases h
    refine ⟨List.pairwise_singleton _ _, ?_⟩
    intro x hx m hm c hc
    have hx' : x = n := by simpa using hx
    subst hx'
    exact (isSink_iff kids x _).mp hsink c hc m (by simp [hm])
  | case3 checked n m rest' rem' out' heq hsink ih =>
    intro rem out h
    rw [forPass_sink_skip kids checked n m rest' hsink, heq] at h
    cases h
    obtain ⟨hpw, hrem⟩ := ih rem' out' heq
    have hsink' := (isSink_iff kids n _).mp hsink
    have hmem : ∀ y, y ∈ rem' ++ out' → y ∈ checked ++ n :: m :: rest' := by
      intro y hy
      have hperm := forPass_perm kids (checked ++ [m]) rest' rem' out' heq
      have : y ∈ (checked ++ [m]) ++ rest' := hperm.symm.subset hy
      simp only [List.append_assoc, List.singleton_append, List.mem_append,
        List.mem_cons] at this ⊢
      tauto
    refine ⟨List.Pairwise.cons ?_ hpw, ?_⟩
    · intro y hy c hc
      exact hsink' c hc y (hmem y (by simp [hy]))
    · intro x hx mm hmm
      rcases List.mem_cons.mp hx with rfl | hx'
      · intro c hc
        exact hsink' c hc mm (hmem mm (by simp [hmm]))
      · exact hrem x hx' mm hmm
  | case4 checked n rest hsink ih =>
    intro rem out h
    rw [forPass_notsink kids checked n rest (by simpa using hsink)] at h
    exact ih rem out h

theorem forPass_out_nil (kids : Kids) (checked rest : List Node) :
    ∀ rem, forPass kids checked rest = (rem, []) →
      rem = checked ++ rest ∧
        ∀ n ∈ rest, isSink kids n (checked ++ rest) = false := by
  induction checked, rest using forPass.induct kids with
  | case1 checked =>
    intro rem h
    rw [forPass_nil] at h
    cases h
    exact ⟨by simp, by simp⟩
  | case2 checked n hsink =>
    intro rem h
    rw [forPass_sink_last kids checked n hsink] at h
    cases h
  | case3 checked n m rest' rem' out' heq hsink ih =>
    intro rem h
    rw [forPass_sink_skip kids checked n m rest' hsink, heq] at h
    cases h
  | case4 checked n rest hsink ih =>
    intro rem h
    rw [forPass_notsink kids checked n rest (by simpa using hsink)] at h
    obtain ⟨hrem, hns⟩ := ih rem h
    rw [List.append_assoc] at hrem
    refine ⟨by simpa using hrem, ?_⟩
    intro x hx
    rcases List.mem_cons.mp hx with rfl | hx'
    · simpa using hsink
    · have := hns x hx'
      rw [List.append_assoc] at this
      simpa using this

theorem exists_max_image {α : Type} (l : List α) (f : α → Nat) (h : l ≠ []) :
    ∃ m ∈ l, ∀ a ∈ l, f a ≤ f m := by
  induction l with
  | nil => exact absurd rfl h
  | cons x t ih =>
    rcases eq_or_ne t [] with rfl | hne
    · exact ⟨x, List.mem_singleton.mpr rfl, by simp⟩
    · obtain ⟨m, hm, hmax⟩ := ih hne
      rcases le_total (f x) (f m) with hle | hle
      · refine ⟨m, List.mem_cons_of_mem _ hm, ?_⟩
        intro a ha
        rcases List.mem_cons.mp ha with rfl | ha'
        · exact hle
        · exact hmax a ha'
      · refine ⟨x, List.mem_cons_self _ _, ?_⟩
        intro a ha
        rcases List.mem_cons.mp ha with rfl | ha'
        · exact le_refl _
        · exact (hmax a ha').trans hle

/-- On a list admitting a rank function that increases from a node to
any of its children present in the list, a full pass over a non-empty
list removes at least one node: otherwise every element would have a
child in the list, which the maximal-rank element cannot. -/
theorem forPass_progress (kids : Kids) (us : List Node) (f : String → Nat)
    (hrank : ∀ n ∈ us, ∀ c ∈ kidsOf kids n.name,
      (∃ m ∈ us, m.name = c) → f n.name < f c)
    (hne : us ≠ []) :
    ∀ rem out, forPass kids [] us = (rem, out) → out ≠ [] := by
  intro rem out h hout
  subst hout
  obtain ⟨hrem, hns⟩ := forPass_out_nil kids [] us rem h
  obtain ⟨nmax, hmem, hmax⟩ := exists_max_image us (fun n => f n.name) hne
  have hsink := hns nmax hmem
  rw [List.nil_append] at hsink
  rw [← Bool.not_eq_true, isSink_iff] at hsink
  push_neg at hsink
  obtain ⟨c, hc, m, hm, hname⟩ := hsink
  have hlt := hrank nmax hmem c hc ⟨m, hm, hname⟩
  have hle := hmax m hm
  rw [hname] at hle
  exact absurd hlt (not_lt.mpr hle)

theorem topoLoop_cons (kids : Kids) (fuel : Nat) (u : Node) (us' : List Node) :
    topoLoop kids (fuel + 1) (u :: us') =
      (forPass kids [] (u :: us')).2 ++
        topoLoop kids fuel (forPass kids [] (u :: us')).1 := by
  cases hfp : forPass kids [] (u :: us') with
  | mk rem out => simp [topoLoop, hfp]

/-- The full while-loop: with fuel at least the list length and a rank
function witnessing acyclicity, it returns a permutation of the input in
which no node is followed by one of its children. -/
theorem topoLoop_spec (kids : Kids) (f : String → Nat) :
    ∀ (fuel : Nat) (us : List Node),
      us.length ≤ fuel →
      (∀ n ∈ us, ∀ c ∈ kidsOf kids n.name,
        (∃ m ∈ us, m.name = c) → f n.name < f c) →
      us.Perm (topoLoop kids fuel us) ∧
        (topoLoop kids fuel us).Pairwise (RemOrd kids) := by
  intro fuel
  induction fuel with
  | zero =>
    intro us hlen _
    have hus : us = [] := List.eq_nil_of_length_eq_zero (Nat.le_zero.mp hlen)
    subst hus
    exact ⟨List.Perm.refl _, List.Pairwise.nil⟩
  | succ fuel ih =>
    intro us hlen hrank
    cases us with
    | nil => exact ⟨List.Perm.refl _, List.Pairwise.nil⟩
    | cons u us' =>
      rcases hfp : forPass kids [] (u :: us') with ⟨rem, out⟩
      have hstep : topoLoop kids (fuel + 1) (u :: us') = out ++ topoLoop kids fuel rem := by
        rw [topoLoop_cons, hfp]
      have hperm : (u :: us').Perm (rem ++ out) := by
        have := forPass_perm kids [] (u :: us') rem out hfp
        simpa using this
      have hout : out ≠ [] :=
        forPass_progress kids (u :: us') f hrank (by simp) rem out hfp
      have hlenr : rem.length ≤ fuel := by
        have hl := hperm.length_eq
        rw [List.length_append] at hl
        have ho : 0 < out.length := List.length_pos.mpr hout
        simp only [List.length_cons] at hl hlen
        omega
      have hrank' : ∀ n ∈ rem, ∀ c ∈ kidsOf kids n.name,
          (∃ m ∈ rem, m.name = c) → f n.name < f c := by
        intro n hn c hc ⟨m, hm, hmn⟩
        have hnin : n ∈ u :: us' := hperm.symm.subset (by simp [hn])
        have hmin : m ∈ u :: us' := hperm.symm.subset (by simp [hm])
        exact hrank n hnin c hc ⟨m, hmin, hmn⟩
      obtain ⟨ihperm, ihpw⟩ := ih rem hlenr hrank'
      obtain ⟨hpwout, hremord⟩ := forPass_out_ord kids [] (u :: us') rem out hfp
      rw [hstep]
      constructor
      · exact hperm.trans ((List.perm_append_comm).trans (ihperm.append_left out))
      · rw [List.pairwise_append]
        refine ⟨hpwout, ihpw, ?_⟩
        intro x hx y hy
        have hyr : y ∈ rem := ihperm.symm.subset hy
        exact hremord x hx y hyr

/-- `topological_sort` under a rank function: it returns the zero-parent
nodes as found, and a permutation of the internal nodes in which no node
precedes one of its parents (no node is followed by one of its
children). -/
theorem topological_sort_spec (nodes : List Node) (kids : Kids) (f : String → Nat)
    (hrank : ∀ n ∈ nodes, ∀ c ∈ kidsOf kids n.name,
      (∃ m ∈ nodes, m.name = c) → f n.name < f c)
    (hparam : nodes.filter (fun n => n.parents.isEmpty) ≠ []) :
    ∃ internal,
      topological_sort nodes kids =
        Except.ok (nodes.filter (fun n => n.parents.isEmpty), internal) ∧
      (nodes.filter (fun n => !n.parents.isEmpty)).Perm internal ∧
      internal.Pairwise (fun x y => RemOrd kids y x) := by
  unfold topological_sort
  rw [if_neg (by simpa [List.isEmpty_iff] using hparam)]
  set us := nodes.filter (fun n => !n.parents.isEmpty) with hus
  have hrank' : ∀ n ∈ us, ∀ c ∈ kidsOf kids n.name,
      (∃ m ∈ us, m.name = c) → f n.name < f c := by
    intro n hn c hc ⟨m, hm, hmn⟩
    have hn' : n ∈ nodes := List.mem_of_mem_filter hn
    have hm' : m ∈ nodes := List.mem_of_mem_filter hm
    exact hrank n hn' c hc ⟨m, hm', hmn⟩
  obtain ⟨hperm, hpw⟩ := topoLoop_spec kids f us.length us (le_refl _) hrank'
  refine ⟨(topoLoop kids us.length us).reverse, rfl, ?_, ?_⟩
  · exact hperm.trans (List.reverse_perm _).symm
  · rw [List.pairwise_reverse]
    exact hpw

/-! ### Builder invariant and ranks -/

/-- Every node's parents are genuine references to nodes whose names
were seen earlier — the invariant `Graph.add` maintains, since by-name
resolution looks names up among already-added nodes. -/
def parentsBack (seen : List String) : List Node → Bool
  | [] => true
  | nd :: rest =>
    nd.parents.all (fun p =>
      match p with
      | PObj.node nm => seen.contains nm
      | PObj.strObj _ => false) && parentsBack (seen ++ [nd.name]) rest

theorem parentsBack_clean (seen : List String) (nodes : List Node)
    (h : parentsBack seen nodes = true) : cleanParents nodes = true := by
  induction nodes generalizing seen with
  | nil => rfl
  | cons nd rest ih =>
    rw [parentsBack, Bool.and_eq_true] at h
    rw [cleanParents, List.all_cons, Bool.and_eq_true]
    refine ⟨?_, ih (seen ++ [nd.name]) h.2⟩
    rw [List.all_eq_true]
    intro p hp
    have := List.all_eq_true.mp h.1 p hp
    cases p with
    | node nm => rfl
    | strObj s => exact absurd this (by simp)

theorem parentsBack_decomp (pre : List Node) (seen : List String)
    (nd : Node) (post nodes : List Node)
    (hco : nodes = pre ++ nd :: post)
    (h : parentsBack seen nodes = true) :
    ∀ p ∈ nd.parents, ∃ nm, p = PObj.node nm ∧ nm ∈ seen ++ nodeNames pre := by
  subst hco
  induction pre generalizing seen with
  | nil =>
    rw [List.nil_append, parentsBack, Bool.and_eq_true] at h
    intro p hp
    have hall := List.all_eq_true.mp h.1 p hp
    cases p with
    | node nm =>
      refine ⟨nm, rfl, ?_⟩
      simp only [nodeNames, List.map_nil, List.append_nil]
      simpa using hall
    | strObj s => exact absurd hall (by simp)
  | cons x pre' ih =>
    rw [List.cons_append, parentsBack, Bool.and_eq_true] at h
    intro p hp
    obtain ⟨nm, hnm, hmem⟩ := ih (seen ++ [x.name]) h.2 p hp
    refine ⟨nm, hnm, ?_⟩
    simp only [nodeNames, List.map_cons, List.append_assoc, List.mem_append,
      List.mem_cons, List.singleton_append] at hmem ⊢
    tauto

/-- The insertion-order rank: position of a name in the graph's node
list. -/
def insRank (nodes : List Node) (nm : String) : Nat :=
  (nodeNames nodes).indexOf nm

/-- In a graph with unique names whose parents all point back, the
insertion rank strictly increases from any node to any of its children
(consumers are added after their parents). -/
theorem insRank_lt_of_child (nodes : List Node) (kids : Kids)
    (hnd : (nodeNames nodes).Nodup)
    (hpb : parentsBack [] nodes = true)
    (hkids : ∀ nm, kidsOf kids nm =
      (if nodes.any (fun n => n.name = nm) = true then childrenSpec nodes nm
       else [])) :
    ∀ n ∈ nodes, ∀ c ∈ kidsOf kids n.name,
      (∃ m ∈ nodes, m.name = c) → insRank nodes n.name < insRank nodes c := by
  intro n hn c hc _
  rw [hkids n.name, if_pos (by rw [List.any_eq_true]; exact ⟨n, hn, by simp⟩)] at hc
  rw [childrenSpec, List.mem_flatMap] at hc
  obtain ⟨cnode, hcnode, hcmem⟩ := hc
  simp only [List.mem_map, List.mem_filter, decide_eq_true_eq] at hcmem
  obtain ⟨p, ⟨hpmem, hpeq⟩, hcname⟩ := hcmem
  obtain ⟨pre, post, hsplit⟩ := List.append_of_mem hcnode
  have hback := parentsBack_decomp pre [] cnode post nodes hsplit hpb p hpmem
  obtain ⟨nm, hnmeq, hnmmem⟩ := hback
  have hnm : nm = n.name := by
    rw [hpeq] at hnmeq
    injection hnmeq.symm
  rw [List.nil_append] at hnmmem
  subst hnm
  subst hcname
  rw [hsplit]
  have hnames : nodeNames (pre ++ cnode :: post) =
      nodeNames pre ++ cnode.name :: nodeNames post := by
    simp [nodeNames]
  unfold insRank
  rw [hnames]
  have hndsplit : (nodeNames pre ++ cnode.name :: nodeNames post).Nodup := by
    rw [hsplit, hnames] at hnd
    exact hnd
  have hcnotpre : cnode.name ∉ nodeNames pre := by
    intro hmem
    have := (List.nodup_append.mp hndsplit).2.2
    exact this hmem (by simp)
  rw [List.indexOf_append_of_mem hnmmem,
    List.indexOf_append_of_not_mem hcnotpre]
  have hlt : (nodeNames pre).indexOf n.name < (nodeNames pre).length :=
    List.indexOf_lt_length.mpr hnmmem
  have : (cnode.name :: nodeNames post).indexOf cnode.name = 0 := by
    simp [List.indexOf_cons_self]
  omega

theorem except_bind_ok {α β : Type} (a : α) (f : α → Except Err β) :
    (Except.ok a >>= f) = f a := rfl

/-- Claim C1: on a graph built through the `add` API (unique names,
parents referring back to already-added nodes) with at least one
parameter node, `done` succeeds and reorders the nodes as the zero-parent
parameter nodes first, followed by the internal nodes in an order where
every parent of an internal node appears before it (among the parameter
nodes or earlier internal nodes); no node of the graph is lost. -/
theorem finalize_topological_order (g : Graph)
    (hnd : (nodeNames g.nodes).Nodup)
    (hpb : parentsBack [] g.nodes = true)
    (hparam : g.nodes.filter (fun n => n.parents.isEmpty) ≠ []) :
    ∃ g' internal kids,
      g.done = Except.ok g' ∧
      g'.nodes = g.nodes.filter (fun n => n.parents.isEmpty) ++ internal ∧
      g'.parameter_nodes = some (g.nodes.filter (fun n => n.parents.isEmpty)) ∧
      g'.kids = some kids ∧
      (∀ n ∈ g.nodes.filter (fun n => n.parents.isEmpty), n.parents = []) ∧
      (∀ n ∈ internal, n.parents ≠ []) ∧
      g.nodes.Perm g'.nodes ∧
      (∀ l1 n l2, internal = l1 ++ n :: l2 →
        ∀ p ∈ n.parents, ∃ nm, p = PObj.node nm ∧
          (nm ∈ nodeNames (g.nodes.filter (fun n => n.parents.isEmpty)) ∨
            nm ∈ nodeNames l1)) := by
  have hclean := parentsBack_clean [] g.nodes hpb
  obtain ⟨kids, huc, hkids⟩ := update_children_spec g.nodes hclean
  have hrank := insRank_lt_of_child g.nodes kids hnd hpb hkids
  obtain ⟨internal, hsort, hperm, hpw⟩ :=
    topological_sort_spec g.nodes kids (insRank g.nodes) hrank hparam
  set params := g.nodes.filter (fun n => n.parents.isEmpty) with hparams
  have hdone : g.done = Except.ok { g with
      nodes := params ++ internal
      parameter_nodes := some params
      kids := some kids } := by
    unfold Graph.done
    rw [huc, except_bind_ok, hsort, except_bind_ok]
  refine ⟨_, internal, kids, hdone, rfl, rfl, rfl, ?_, ?_, ?_, ?_⟩
  · intro n hn
    have := (List.mem_filter.mp hn).2
    simpa [List.isEmpty_iff] using this
  · intro n hn
    have hn' := hperm.symm.subset hn
    have := (List.mem_filter.mp hn').2
    simpa [List.isEmpty_iff] using this
  · show g.nodes.Perm (params ++ internal)
    have hfp : (params ++ g.nodes.filter (fun n => !n.parents.isEmpty)).Perm g.nodes :=
      List.filter_append_perm _ g.nodes
    exact hfp.symm.trans (hperm.append_left params)
  · intro l1 n l2 hco p hp
    have hnint : n ∈ internal := by rw [hco]; simp
    have hnfil : n ∈ g.nodes.filter (fun n => !n.parents.isEmpty) :=
      hperm.symm.subset hnint
    have hnnodes : n ∈ g.nodes := List.mem_of_mem_filter hnfil
    obtain ⟨pre, post, hsplit⟩ := List.append_of_mem hnnodes
    obtain ⟨nm, hpeq, hnmmem⟩ :=
      parentsBack_decomp pre [] n post g.nodes hsplit hpb p hp
    rw [List.nil_append] at hnmmem
    refine ⟨nm, hpeq, ?_⟩
    obtain ⟨q, hqpre, hqname⟩ := by
      simpa only [nodeNames, List.mem_map] using hnmmem
    have hqnodes : q ∈ g.nodes := by rw [hsplit]; simp [hqpre]
    by_cases hqe : q.parents.isEmpty = true
    · left
      rw [← hqname]
      exact List.mem_map_of_mem _ (List.mem_filter.mpr ⟨hqnodes, by simpa using hqe⟩)
    · right
      have hqfil : q ∈ g.nodes.filter (fun n => !n.parents.isEmpty) :=
        List.mem_filter.mpr ⟨hqnodes, by simpa using hqe⟩
      have hqint : q ∈ internal := hperm.subset hqfil
      have hnchild : n.name ∈ kidsOf kids q.name := by
        rw [hkids q.name, if_pos (by
          rw [List.any_eq_true]
          exact ⟨q, hqnodes, by simp⟩)]
        rw [childrenSpec, List.mem_flatMap]
        refine ⟨n, hnnodes, ?_⟩
        rw [List.mem_map]
        refine ⟨p, ?_, rfl⟩
        rw [List.mem_filter]
        exact ⟨hp, by rw [hpeq, hqname]; simp⟩
      rw [hco] at hqint
      rcases List.mem_append.mp hqint with hql1 | hqcons
      · rw [← hqname]
        exact List.mem_map_of_mem _ hql1
      · exfalso
        rcases List.mem_cons.mp hqcons with rfl | hql2
        · -- q = n: a node would be its own consumer, impossible by rank
          have := hrank q hqnodes q.name hnchild ⟨q, hqnodes, rfl⟩
          exact absurd this (lt_irrefl _)
        · -- q after n in the internal order: contradicts the pairwise order
          rw [hco] at hpw
          have hpair := (List.pairwise_append.mp hpw).2.1
          have hrel := (List.pairwise_cons.mp hpair).1 q hql2
          exact hrel n.name hnchild rfl

/-! ### Table lemmas -/

/-- The keys of a table. -/
def tkeys (tbl : Table) : List String :=
  tbl.map (fun e => e.1)

theorem tlookup_eq_find? (tbl : Table) (k : String) :
    tlookup tbl k = (tbl.find? (fun e => e.1 = k)).map (fun e => e.2) := by
  induction tbl with
  | nil => rfl
  | cons e rest ih =>
    by_cases h : e.1 = k
    · cases e
      subst h
      simp [tlookup, List.lookup, List.find?_cons]
    · cases e with
      | mk k' v =>
        have hne : k' ≠ k := h
        simp only [tlookup, List.lookup, List.find?_cons] at ih ⊢
        rw [show (k == k') = false by simpa using fun hc => hne hc.symm]
        rw [show (decide (k' = k)) = false by simpa using hne]
        exact ih

theorem tlookup_isSome_iff (tbl : Table) (k : String) :
    (∃ v, tlookup tbl k = some v) ↔ k ∈ tkeys tbl := by
  rw [tlookup_eq_find?]
  constructor
  · rintro ⟨v, hv⟩
    cases hf : tbl.find? (fun e => e.1 = k) with
    | none => rw [hf] at hv; exact Option.noConfusion hv
    | some e =>
      have h1 := List.find?_some hf
      have h2 := List.mem_of_find?_eq_some hf
      refine List.mem_map.mpr ⟨e, h2, ?_⟩
      simpa using h1
  · intro hk
    obtain ⟨e, he, hek⟩ := List.mem_map.mp hk
    have : (tbl.find? (fun e => e.1 = k)).isSome := by
      rw [List.find?_isSome]
      exact ⟨e, he, by simpa using hek⟩
    obtain ⟨e', he'⟩ := Option.isSome_iff_exists.mp this
    exact ⟨e'.2, by rw [he']; rfl⟩

theorem tlookup_eq_none_iff (tbl : Table) (k : String) :
    tlookup tbl k = none ↔ k ∉ tkeys tbl := by
  rw [← tlookup_isSome_iff]
  cases h : tlookup tbl k with
  | none => simp [h]
  | some v => simp [h]

theorem hasKeyT_iff (tbl : Table) (k : String) :
    tbl.any (fun e => e.1 = k) = true ↔ k ∈ tkeys tbl := by
  rw [List.any_eq_true]
  constructor
  · rintro ⟨e, he, hk⟩
    exact List.mem_map.mpr ⟨e, he, by simpa using hk⟩
  · intro hk
    obtain ⟨e, he, hek⟩ := List.mem_map.mp hk
    exact ⟨e, he, by simpa using hek⟩

theorem tinsert_of_not_mem (tbl : Table) (k : String) (v : Tensor)
    (h : k ∉ tkeys tbl) :
    tinsert tbl k v = tbl ++ [(k, v)] := by
  unfold tinsert
  rw [if_neg (fun hc => h ((hasKeyT_iff tbl k).mp hc))]

theorem tlookup_append_right (tbl₁ tbl₂ : Table) (k : String)
    (h : k ∉ tkeys tbl₁) :
    tlookup (tbl₁ ++ tbl₂) k = tlookup tbl₂ k := by
  rw [tlookup_eq_find?, tlookup_eq_find?, List.find?_append]
  have : tbl₁.find? (fun e => e.1 = k) = none := by
    rw [List.find?_eq_none]
    intro e he
    simp only [decide_eq_true_eq]
    intro hek
    exact h (List.mem_map.mpr ⟨e, he, hek⟩)
  rw [this]
  rfl

theorem tlookup_append_left (tbl₁ tbl₂ : Table) (k : String)
    (h : k ∈ tkeys tbl₁) :
    tlookup (tbl₁ ++ tbl₂) k = tlookup tbl₁ k := by
  rw [tlookup_eq_find?, tlookup_eq_find?, List.find?_append]
  cases hf : tbl₁.find? (fun e => e.1 = k) with
  | none =>
    exfalso
    obtain ⟨e, he, hek⟩ := List.mem_map.mp h
    have hs : (tbl₁.find? (fun e => e.1 = k)).isSome := by
      rw [List.find?_isSome]
      exact ⟨e, he, by simpa using hek⟩
    rw [hf] at hs
    simp at hs
  | some e => rfl

theorem tlookup_tinsert_fresh_self (tbl : Table) (k : String) (v : Tensor)
    (h : k ∉ tkeys tbl) :
    tlookup (tinsert tbl k v) k = some v := by
  rw [tinsert_of_not_mem tbl k v h, tlookup_append_right tbl _ k h]
  simp [tlookup, List.lookup]

theorem tlookup_tinsert_fresh_other (tbl : Table) (k k' : String) (v : Tensor)
    (h : k ∉ tkeys tbl) (hne : k' ≠ k) :
    tlookup (tinsert tbl k v) k' = tlookup tbl k' := by
  rw [tinsert_of_not_mem tbl k v h]
  by_cases hk' : k' ∈ tkeys tbl
  · exact tlookup_append_left tbl _ k' hk'
  · rw [tlookup_append_right tbl _ k' hk']
    have hnone : tlookup tbl k' = none := (tlookup_eq_none_iff tbl k').mpr hk'
    rw [hnone]
    simp [tlookup, List.lookup, show (k' == k) = false by simpa using hne]

theorem tkeys_tinsert_fresh (tbl : Table) (k : String) (v : Tensor)
    (h : k ∉ tkeys tbl) :
    tkeys (tinsert tbl k v) = tkeys tbl ++ [k] := by
  rw [tinsert_of_not_mem tbl k v h]
  simp [tkeys]

/-- `pginsert` and its first-match read. -/
theorem pgfind_pginsert_self (tbl : PGTable) (k : String) (v : List Tensor) :
    ((pginsert tbl k v).find? (fun e => e.1 = k)).map (fun e => e.2) = some v := by
  unfold pginsert
  by_cases h : tbl.any (fun e => e.1 = k) = true
  · rw [if_pos h]
    obtain ⟨e, he, hek⟩ := List.any_eq_true.mp h
    induction tbl with
    | nil => cases he
    | cons x rest ih =>
      by_cases hx : x.1 = k
      · simp [List.find?_cons, hx]
      · simp only [List.map_cons, if_neg hx, List.find?_cons]
        rw [show (decide (x.1 = k)) = false by simpa using hx]
        rcases List.mem_cons.mp he with rfl | he'
        · exact absurd (by simpa using hek) hx
        · exact ih (by rw [List.any_eq_true]; exact ⟨e, he', hek⟩) he'
  · rw [if_neg h, List.find?_append]
    have hnone : tbl.find? (fun e => e.1 = k) = none := by
      rw [List.find?_eq_none]
      intro e he hek
      exact h (List.any_eq_true.mpr ⟨e, he, hek⟩)
    rw [hnone]
    simp

theorem pgfind_pginsert_other (tbl : PGTable) (k k' : String) (v : List Tensor)
    (hne : k' ≠ k) :
    (pginsert tbl k v).find? (fun e => e.1 = k') =
      (tbl.find? (fun e => e.1 = k')).map
        (fun e => if e.1 = k then (k, v) else e) := by
  unfold pginsert
  by_cases h : tbl.any (fun e => e.1 = k) = true
  · have hpred : ((fun e : String × List Tensor => decide (e.1 = k')) ∘
        (fun e => if e.1 = k then (k, v) else e)) =
        (fun e : String × List Tensor => decide (e.1 = k')) := by
      funext e
      by_cases hek : e.1 = k
      · simp [Function.comp, hek, show ¬(k = k') from fun hc => hne hc.symm]
      · simp [Function.comp, hek]
    rw [if_pos h, List.find?_map, hpred]
  · rw [if_neg h, List.find?_append]
    have hsingle : [((k, v) : String × List Tensor)].find? (fun e => e.1 = k') = none := by
      simp [List.find?_cons, show ¬(k = k') from fun hc => hne hc.symm]
    cases hf : tbl.find? (fun e => e.1 = k') with
    | none => simp [hsingle]
    | some e =>
      have hek' : e.1 = k' := by simpa using List.find?_some hf
      have hek : ¬(e.1 = k) := fun hc => hne (hek' ▸ hc ▸ rfl)
      simp [hek]

/-! ### Name uniqueness helpers -/

theorem name_inj (nodes : List Node) (hnd : (nodeNames nodes).Nodup)
    (x : Node) (hx : x ∈ nodes) (y : Node) (hy : y ∈ nodes)
    (hname : x.name = y.name) : x = y := by
  exact List.inj_on_of_nodup_map hnd hx hy hname

theorem findNode_eq (nodes : List Node) (hnd : (nodeNames nodes).Nodup)
    (x : Node) (hx : x ∈ nodes) :
    findNode nodes x.name = some x := by
  cases hf : findNode nodes x.name with
  | none =>
    exfalso
    unfold findNode at hf
    rw [List.find?_eq_none] at hf
    exact hf x hx (by simp)
  | some y =>
    unfold findNode at hf
    have hy := List.mem_of_find?_eq_some hf
    have hyn : y.name = x.name := by simpa using List.find?_some hf
    rw [name_inj nodes hnd y hy x hx hyn]

theorem nodeNames_append (a b : List Node) :
    nodeNames (a ++ b) = nodeNames a ++ nodeNames b := by
  simp [nodeNames]

theorem nodeNames_cons (n : Node) (l : List Node) :
    nodeNames (n :: l) = n.name :: nodeNames l := rfl

theorem nodeNames_length (l : List Node) : (nodeNames l).length = l.length := by
  simp [nodeNames]

theorem decomp_unique (nodes : List Node) (hnd : (nodeNames nodes).Nodup)
    (a b c d : List Node) (x y : Node)
    (h1 : nodes = a ++ x :: b) (h2 : nodes = c ++ y :: d)
    (hxy : x.name = y.name) : a = c ∧ x = y ∧ b = d := by
  have hx : x ∈ nodes := by rw [h1]; simp
  have hy : y ∈ nodes := by rw [h2]; simp
  have hxyeq : x = y := name_inj nodes hnd x hx y hy hxy
  subst hxyeq
  have heq : a ++ x :: b = c ++ x :: d := h1 ▸ h2
  have hnd1 : (nodeNames a ++ x.name :: nodeNames b).Nodup := by
    rw [← nodeNames_cons, ← nodeNames_append, ← h1]
    exact hnd
  have hnd2 : (nodeNames c ++ x.name :: nodeNames d).Nodup := by
    rw [← nodeNames_cons, ← nodeNames_append, ← h2]
    exact hnd
  have hlen : a.length = c.length := by
    have hnames : nodeNames a ++ x.name :: nodeNames b =
        nodeNames c ++ x.name :: nodeNames d := by
      rw [← nodeNames_cons, ← nodeNames_append, ← nodeNames_cons, ← nodeNames_append,
        ← h1, ← h2]
    have hnda : x.name ∉ nodeNames a := fun hmem =>
      (List.nodup_append.mp hnd1).2.2 hmem (by simp)
    have hndc : x.name ∉ nodeNames c := fun hmem =>
      (List.nodup_append.mp hnd2).2.2 hmem (by simp)
    have hidx1 : (nodeNames a ++ x.name :: nodeNames b).indexOf x.name =
        (nodeNames a).length := by
      rw [List.indexOf_append_of_not_mem hnda]
      simp [List.indexOf_cons_self]
    have hidx2 : (nodeNames c ++ x.name :: nodeNames d).indexOf x.name =
        (nodeNames c).length := by
      rw [List.indexOf_append_of_not_mem hndc]
      simp [List.indexOf_cons_self]
    have hl : (nodeNames a).length = (nodeNames c).length := by
      rw [← hidx1, ← hidx2, hnames]
    rw [nodeNames_length, nodeNames_length] at hl
    exact hl
  obtain ⟨ha, hb⟩ := List.append_inj heq hlen
  exact ⟨ha, rfl, by injection hb⟩

/-! ### Forward-pass characterization -/

/-- Whether an operation is the terminal `OpValue`. -/
def NodeOp.isValue : NodeOp → Bool
  | .value => true
  | .op _ => false

theorem isValue_iff (op : NodeOp) : op.isValue = true ↔ op = NodeOp.value := by
  cases op <;> simp [NodeOp.isValue]

/-- The input activations of a node, read off an activation table (the
value Python's `[output_table[p.name] for p in node.inputs()]` computes
when it succeeds). -/
def actsOf (ot : Table) (c : Node) : List Tensor :=
  c.parents.map (fun p =>
    match p with
    | PObj.node pn => (tlookup ot pn).getD default
    | PObj.strObj _ => default)

/-- What `Graph.done` guarantees about the finalized node list and
children map, as used by the propagation engine. -/
structure GoodGraph (nodes : List Node) (kids : Kids) : Prop where
  nodup : (nodeNames nodes).Nodup
  sorted : ∀ a nd b, nodes = a ++ nd :: b → ∀ p ∈ nd.parents,
    ∃ nm, p = PObj.node nm ∧ nm ∈ nodeNames a
  kids_mem : ∀ nm c, c ∈ kidsOf kids nm ↔
    ∃ cnode ∈ nodes, cnode.name = c ∧ PObj.node nm ∈ cnode.parents
  arity : ∀ nd ∈ nodes, nd.parents.length = nd.op.num_inputs

theorem gatherActs_ok (ot : Table) (ps : List PObj)
    (h : ∀ p ∈ ps, ∃ nm, p = PObj.node nm ∧ ∃ t, tlookup ot nm = some t) :
    ps.mapM (fun p =>
      match p with
      | PObj.node nm =>
        match tlookup ot nm with
        | some t => Except.ok t
        | none => Except.error Err.keyError
      | PObj.strObj _ => Except.error Err.attributeError) =
      Except.ok (ps.map (fun p =>
        match p with
        | PObj.node pn => (tlookup ot pn).getD default
        | PObj.strObj _ => default)) := by
  induction ps with
  | nil => rfl
  | cons p ps ih =>
    obtain ⟨nm, rfl, t, ht⟩ := h p (List.mem_cons_self _ _)
    rw [List.mapM_cons, ih (fun q hq => h q (List.mem_cons_of_mem _ hq))]
    simp [ht]
    rfl

theorem actsOf_congr (ot₁ ot₂ : Table) (n : Node)
    (h : ∀ p ∈ n.parents, ∀ nm, p = PObj.node nm →
      tlookup ot₁ nm = tlookup ot₂ nm) :
    actsOf ot₁ n = actsOf ot₂ n := by
  unfold actsOf
  refine List.map_congr_left ?_
  intro p hp
  cases p with
  | node pn =>
    show (tlookup ot₁ pn).getD default = (tlookup ot₂ pn).getD default
    rw [h (PObj.node pn) hp pn rfl]
  | strObj s => rfl

/-- The propagation loop of `prop` on a sorted graph: it succeeds and
fills the table with exactly one activation per node — an `op` node's
activation is its operation's forward value on its parents' activations,
a value node's is its assigned parameter. -/
theorem propLoop_ok (nodes : List Node) (kids : Kids)
    (ptable : List (String × Tensor)) (G : GoodGraph nodes kids)
    (hpt : ∀ n ∈ nodes, n.parents = [] → ∃ v, tlookup ptable n.name = some v) :
    ∀ (rest pre : List Node) (tbl : Table),
      nodes = pre ++ rest →
      (∀ nm, (∃ v, tlookup tbl nm = some v) ↔ nm ∈ nodeNames pre) →
      (∀ n ∈ pre,
        (∀ o, n.op = NodeOp.op o →
          tlookup tbl n.name = some (o.forward (actsOf tbl n))) ∧
        (n.op = NodeOp.value → tlookup tbl n.name = tlookup ptable n.name)) →
      ∃ tbl', propLoop ptable rest tbl = Except.ok tbl' ∧
        (∀ nm, (∃ v, tlookup tbl' nm = some v) ↔ nm ∈ nodeNames nodes) ∧
        (∀ n ∈ nodes,
          (∀ o, n.op = NodeOp.op o →
            tlookup tbl' n.name = some (o.forward (actsOf tbl' n))) ∧
          (n.op = NodeOp.value → tlookup tbl' n.name = tlookup ptable n.name)) := by
  intro rest
  induction rest with
  | nil =>
    intro pre tbl hco hcov hval
    rw [List.append_nil] at hco
    subst hco
    exact ⟨tbl, rfl, hcov, hval⟩
  | cons nd rest' ih =>
    intro pre tbl hco hcov hval
    have hndfresh : nd.name ∉ nodeNames pre := by
      intro hmem
      have h1 : (nodeNames pre ++ nd.name :: nodeNames rest').Nodup := by
        rw [← nodeNames_cons, ← nodeNames_append, ← hco]
        exact G.nodup
      exact (List.nodup_append.mp h1).2.2 hmem (by simp)
    have hnone : tlookup tbl nd.name = none := by
      rw [tlookup_eq_none_iff]
      intro hk
      exact hndfresh ((hcov nd.name).mp ((tlookup_isSome_iff tbl nd.name).mpr hk))
    have hparents : ∀ p ∈ nd.parents, ∃ nm, p = PObj.node nm ∧
        ∃ t, tlookup tbl nm = some t := by
      intro p hp
      obtain ⟨nm, hpe, hmem⟩ := G.sorted pre nd rest' hco p hp
      refine ⟨nm, hpe, ?_⟩
      exact (hcov nm).mpr hmem
    have hgather := gatherActs_ok tbl nd.parents hparents
    have hstep : ∃ act, propLoop ptable (nd :: rest') tbl =
        propLoop ptable rest' (tinsert tbl nd.name act) ∧
        ((∀ o, nd.op = NodeOp.op o → act = o.forward (actsOf tbl nd)) ∧
          (nd.op = NodeOp.value → some act = tlookup ptable nd.name)) := by
      cases hop : nd.op with
      | value =>
        have hpe : nd.parents = [] := by
          have ha := G.arity nd (by rw [hco]; simp)
          rw [hop] at ha
          exact List.eq_nil_of_length_eq_zero ha
        obtain ⟨v, hv⟩ := hpt nd (by rw [hco]; simp) hpe
        refine ⟨v, ?_, ?_, ?_⟩
        · simp only [propLoop]
          rw [hgather, except_bind_ok, hop]
          have hempty : (nd.parents.map (fun p =>
              match p with
              | PObj.node pn => (tlookup tbl pn).getD default
              | PObj.strObj _ => default)).isEmpty = true := by
            simp [hpe]
          rw [hempty]
          simp only [if_true, hv]
          rfl
        · intro o ho
          exact NodeOp.noConfusion ho
        · intro _
          exact hv.symm
      | op o =>
        refine ⟨o.forward (actsOf tbl nd), ?_, ?_, ?_⟩
        · simp only [propLoop]
          rw [hgather, except_bind_ok, hop]
          rfl
        · intro o' ho'
          injection ho' with h
          rw [h]
        · intro hv
          exact NodeOp.noConfusion hv
    obtain ⟨act, hred, hact⟩ := hstep
    have hco' : nodes = (pre ++ [nd]) ++ rest' := by
      rw [hco, List.append_assoc]
      rfl
    have hfreshk : nd.name ∉ tkeys tbl := by
      rw [← tlookup_eq_none_iff]
      exact hnone
    have hcov' : ∀ nm, (∃ v, tlookup (tinsert tbl nd.name act) nm = some v) ↔
        nm ∈ nodeNames (pre ++ [nd]) := by
      intro nm
      by_cases hnm : nm = nd.name
      · subst hnm
        rw [tlookup_tinsert_fresh_self tbl nd.name act hfreshk]
        simp [nodeNames_append, nodeNames]
      · rw [tlookup_tinsert_fresh_other tbl nd.name nm act hfreshk hnm]
        rw [hcov nm]
        simp only [nodeNames_append, List.mem_append]
        constructor
        · exact fun h => Or.inl h
        · rintro (h | h)
          · exact h
          · exact absurd (by simpa [nodeNames] using h) hnm
    have hstable : ∀ n ∈ pre, ∀ p ∈ n.parents, ∀ nm, p = PObj.node nm →
        tlookup (tinsert tbl nd.name act) nm = tlookup tbl nm := by
      intro n hn p hp nm hpe
      obtain ⟨pre₁, pre₂, hpre⟩ := List.append_of_mem hn
      have hco₂ : nodes = pre₁ ++ n :: (pre₂ ++ nd :: rest') := by
        rw [hco, hpre]
        simp
      obtain ⟨nm', hpe', hmem'⟩ := G.sorted pre₁ n _ hco₂ p hp
      have hnm : nm = nm' := by
        rw [hpe] at hpe'
        injection hpe'
      have hnmpre : nm ∈ nodeNames pre := by
        rw [hnm, hpre, nodeNames_append, List.mem_append]
        exact Or.inl hmem'
      exact tlookup_tinsert_fresh_other tbl nd.name nm act hfreshk
        (fun hc => hndfresh (hc ▸ hnmpre))
    have hval' : ∀ n ∈ pre ++ [nd],
        (∀ o, n.op = NodeOp.op o →
          tlookup (tinsert tbl nd.name act) n.name =
            some (o.forward (actsOf (tinsert tbl nd.name act) n))) ∧
        (n.op = NodeOp.value →
          tlookup (tinsert tbl nd.name act) n.name = tlookup ptable n.name) := by
      intro n hn
      rcases List.mem_append.mp hn with hnp | hnd
      · have hne : n.name ≠ nd.name := by
          intro hc
          exact hndfresh (hc ▸ List.mem_map_of_mem _ hnp)
        have hacts : actsOf (tinsert tbl nd.name act) n = actsOf tbl n :=
          actsOf_congr _ _ n (hstable n hnp)
        constructor
        · intro o ho
          rw [tlookup_tinsert_fresh_other tbl nd.name n.name act hfreshk hne,
            hacts]
          exact (hval n hnp).1 o ho
        · intro hv
          rw [tlookup_tinsert_fresh_other tbl nd.name n.name act hfreshk hne]
          exact (hval n hnp).2 hv
      · have hne : n = nd := by simpa using hnd
        subst hne
        constructor
        · intro o ho
          rw [tlookup_tinsert_fresh_self tbl n.name act hfreshk]
          have hacts : actsOf (tinsert tbl n.name act) n = actsOf tbl n := by
            refine actsOf_congr _ _ n ?_
            intro p hp nm hpe
            obtain ⟨nm', hpe', hmem'⟩ := G.sorted pre n rest' hco p hp
            have hnm : nm = nm' := by
              rw [hpe] at hpe'
              injection hpe'
            have hmem : nm ∈ nodeNames pre := by
              rw [hnm]
              exact hmem'
            exact tlookup_tinsert_fresh_other tbl n.name nm act hfreshk
              (fun hc => hndfresh (hc ▸ hmem))
          rw [hacts, hact.1 o ho]
        · intro hv
          rw [tlookup_tinsert_fresh_self tbl n.name act hfreshk]
          exact hact.2 hv
    obtain ⟨tbl', hloop, hcovf, hvalf⟩ :=
      ih (pre ++ [nd]) (tinsert tbl nd.name act) hco' hcov' hval'
    exact ⟨tbl', by rw [hred, hloop], hcovf, hvalf⟩

theorem assignParams_ok (nodes : List Node) (hnd : (nodeNames nodes).Nodup)
    (pt : List (String × Tensor))
    (h : ∀ e ∈ pt, ∃ nd ∈ nodes, nd.name = e.1 ∧ nd.op.isValue = true) :
    assignParams nodes pt = Except.ok () := by
  induction pt with
  | nil => rfl
  | cons e rest ih =>
    obtain ⟨nd, hndm, hname, hval⟩ := h e (List.mem_cons_self _ _)
    have hfind : findNode nodes e.1 = some nd := by
      rw [← hname]
      exact findNode_eq nodes hnd nd hndm
    cases e with
    | mk k v =>
      rw [assignParams, hfind]
      show (match nd.op with
        | NodeOp.value => assignParams nodes rest
        | NodeOp.op _ => Except.error Err.attributeError) = Except.ok ()
      rw [(isValue_iff nd.op).mp hval]
      exact ih (fun e' he' => h e' (List.mem_cons_of_mem _ he'))

/-- `prop` on a finalized graph with every parameter assigned and every
assignment key naming a value node: it succeeds, and the activation
table covers exactly the graph's nodes, holding each operation node's
forward value on its parents' activations and each value node's
assigned parameter. -/
theorem prop_ok (nodes : List Node) (kids : Kids)
    (ptable : List (String × Tensor)) (G : GoodGraph nodes kids)
    (hne : nodes ≠ [])
    (hpt : ∀ n ∈ nodes, n.parents = [] → ∃ v, tlookup ptable n.name = some v)
    (hkeys : ∀ e ∈ ptable, ∃ nd ∈ nodes, nd.name = e.1 ∧ nd.op.isValue = true) :
    ∃ out tbl, prop nodes ptable = Except.ok (out, tbl) ∧
      (∀ nm, (∃ v, tlookup tbl nm = some v) ↔ nm ∈ nodeNames nodes) ∧
      (∀ n ∈ nodes,
        (∀ o, n.op = NodeOp.op o →
          tlookup tbl n.name = some (o.forward (actsOf tbl n))) ∧
        (n.op = NodeOp.value →
          tlookup tbl n.name = tlookup ptable n.name)) := by
  obtain ⟨tbl, hloop, hcov, hval⟩ := propLoop_ok nodes kids ptable G hpt nodes [] []
    rfl
    (by
      intro nm
      simp [tlookup, List.lookup, nodeNames])
    (by intro n hn; cases hn)
  cases hlast : nodes.getLast? with
  | none => exact absurd (List.getLast?_eq_none_iff.mp hlast) hne
  | some last =>
    have hmem : last ∈ nodes := List.mem_of_mem_getLast? hlast
    obtain ⟨v, hv⟩ := (hcov last.name).mpr (List.mem_map_of_mem _ hmem)
    refine ⟨v, tbl, ?_, hcov, hval⟩
    rw [prop, assignParams_ok nodes G.nodup ptable hkeys, except_bind_ok,
      hloop, except_bind_ok, hlast]
    show (match tlookup tbl last.name with
      | some t => Except.ok (t, tbl)
      | none => Except.error Err.keyError) = Except.ok (v, tbl)
    rw [hv]

/-- The parameter-assignment loop can only raise the dict-lookup or
missing-`assign` errors, never the missing-parameter exception. -/
theorem assignParams_no_missing (nodes : List Node)
    (pt : List (String × Tensor)) :
    assignParams nodes pt ≠ Except.error Err.missingParameter := by
  induction pt with
  | nil => intro h; cases h
  | cons e rest ih =>
    cases e with
    | mk k v =>
      rw [assignParams]
      cases findNode nodes k with
      | none => intro h; cases h
      | some nd =>
        show (match nd.op with
          | NodeOp.value => assignParams nodes rest
          | NodeOp.op _ => Except.error Err.attributeError) ≠
          Except.error Err.missingParameter
        cases nd.op with
        | value => exact ih
        | op o => intro h; cases h

theorem except_bind_error {α β : Type} (e : Err) (f : α → Except Err β) :
    ((Except.error e : Except Err α) >>= f) = Except.error e := rfl

theorem gather_no_missing (ot : Table) (ps : List PObj) :
    ps.mapM (fun p =>
      match p with
      | PObj.node nm =>
        match tlookup ot nm with
        | some t => Except.ok t
        | none => Except.error Err.keyError
      | PObj.strObj _ => Except.error Err.attributeError) ≠
      Except.error Err.missingParameter := by
  induction ps with
  | nil => intro h; cases h
  | cons p ps ih =>
    intro h
    rw [List.mapM_cons] at h
    cases p with
    | node nm =>
      cases hl : tlookup ot nm with
      | none =>
        simp only [hl, except_bind_error] at h
        injection h with h'
        exact Err.noConfusion h'
      | some t =>
        cases hrest : ps.mapM (fun p =>
            match p with
            | PObj.node nm =>
              match tlookup ot nm with
              | some t => Except.ok t
              | none => Except.error Err.keyError
            | PObj.strObj _ => Except.error Err.attributeError) with
        | ok l =>
          simp only [hl, hrest, except_bind_ok] at h
          exact Except.noConfusion h
        | error e =>
          simp only [hl, hrest, except_bind_error, except_bind_ok] at h
          have he : e = Err.missingParameter := by
            injection h
          exact ih (by rw [hrest, he])
    | strObj s =>
      simp only [except_bind_error] at h
      injection h with h'
      exact Err.noConfusion h'

/-- The propagation loop never raises the missing-parameter
exception. -/
theorem propLoop_no_missing (ptable : List (String × Tensor)) :
    ∀ (rest : List Node) (tbl : Table),
      propLoop ptable rest tbl ≠ Except.error Err.missingParameter := by
  intro rest
  induction rest with
  | nil => intro tbl h; cases h
  | cons nd rest' ih =>
    intro tbl h
    rw [propLoop] at h
    cases hargs : nd.parents.mapM (fun p =>
        match p with
        | PObj.node nm =>
          match tlookup tbl nm with
          | some t => Except.ok t
          | none => Except.error Err.keyError
        | PObj.strObj _ => Except.error Err.attributeError) with
    | error e =>
      simp only [hargs, except_bind_error] at h
      have he : e = Err.missingParameter := by injection h
      exact gather_no_missing tbl nd.parents (by rw [hargs, he])
    | ok args =>
      simp only [hargs, except_bind_ok] at h
      cases hop : nd.op with
      | value =>
        simp only [hop] at h
        by_cases hae : args.isEmpty = true
        · simp only [hae, if_true] at h
          cases hpt : tlookup ptable nd.name with
          | none =>
            simp only [hpt, except_bind_error] at h
            injection h with h'
            exact Err.noConfusion h'
          | some t =>
            simp only [hpt, except_bind_ok] at h
            exact ih _ h
        · simp only [if_neg hae] at h
          injection h with h'
          exact Err.noConfusion h'
      | op o =>
        simp only [hop, except_bind_ok] at h
        exact ih _ h

/-- `prop` never raises the missing-parameter exception: that error can
only come from `Graph.forward`'s own precondition check. -/
theorem prop_no_missing (nodes : List Node) (ptable : List (String × Tensor)) :
    prop nodes ptable ≠ Except.error Err.missingParameter := by
  intro h
  rw [prop] at h
  cases hassign : assignParams nodes ptable with
  | error e =>
    simp only [hassign, except_bind_error] at h
    have he : e = Err.missingParameter := by injection h
    exact assignParams_no_missing nodes ptable (by rw [hassign, he])
  | ok u =>
    cases u
    simp only [hassign, except_bind_ok] at h
    cases hloop : propLoop ptable nodes [] with
    | error e =>
      simp only [hloop, except_bind_error] at h
      have he : e = Err.missingParameter := by injection h
      exact propLoop_no_missing ptable nodes [] (by rw [hloop, he])
    | ok tbl =>
      simp only [hloop, except_bind_ok] at h
      cases hlast : nodes.getLast? with
      | none =>
        simp only [hlast] at h
        injection h with h'
        exact Err.noConfusion h'
      | some last =>
        simp only [hlast] at h
        cases hlk : tlookup tbl last.name with
        | none =>
          simp only [hlk] at h
          injection h with h'
          exact Err.noConfusion h'
        | some t =>
          simp only [hlk] at h
          exact Except.noConfusion h

/-! ### The gradient specification table -/

/-- `reduce(lambda x, y: x + y, l)` on a non-empty list, as a value. -/
def dsum : List Tensor → Tensor
  | [] => default
  | t :: ts => ts.foldl Tensor.add t

theorem reduceSum_eq_dsum (l : List Tensor) (h : l ≠ []) :
    reduceSum l = Except.ok (dsum l) := by
  cases l with
  | nil => exact absurd rfl h
  | cons t ts => rfl

/-- The gradient one consumer back-propagates to the node named `nm`:
the component of the consumer's `backward` output — taken at the
consumer's cached output gradient and its input activations — matching
the node's first position among the consumer's parents. -/
def contribOf (nodes : List Node) (ot tbl : Table) (nm cnm : String) : Tensor :=
  match findNode nodes cnm with
  | none => default
  | some c =>
    match c.op, indexOfNode nm c.parents with
    | NodeOp.op o, some idx =>
      (o.backward ((tlookup tbl cnm).getD default) (actsOf ot c)).getD idx default
    | _, _ => default

/-- The gradient at a node's output: the all-ones seed for a sink, and
the sum of every consumer's back-propagated component otherwise. -/
def specVal (nodes : List Node) (kids : Kids) (ot tbl : Table) (n : Node) : Tensor :=
  if (kidsOf kids n.name).isEmpty then
    Tensor.ones ((tlookup ot n.name).getD default).shape
  else
    dsum ((kidsOf kids n.name).map (contribOf nodes ot tbl n.name))

/-- The table of output gradients the backward pass is expected to
produce, built from the sinks backwards. -/
def specTable (nodes : List Node) (kids : Kids) (ot : Table) : Table :=
  nodes.reverse.foldl
    (fun tbl n => tinsert tbl n.name (specVal nodes kids ot tbl n)) []

theorem tlookup_tinsert_self (tbl : Table) (k : String) (v : Tensor) :
    tlookup (tinsert tbl k v) k = some v := by
  unfold tinsert
  by_cases h : tbl.any (fun e => e.1 = k) = true
  · rw [if_pos h, tlookup_eq_find?, List.find?_map]
    obtain ⟨e, he, hek⟩ := List.any_eq_true.mp h
    have hpred : ((fun e : String × Tensor => decide (e.1 = k)) ∘
        (fun e => if e.1 = k then (k, v) else e)) =
        (fun e : String × Tensor => decide (e.1 = k)) := by
      funext x
      by_cases hx : x.1 = k
      · simp [Function.comp, hx]
      · simp [Function.comp, hx]
    rw [hpred]
    cases hf : tbl.find? (fun e => e.1 = k) with
    | none =>
      exfalso
      rw [List.find?_eq_none] at hf
      exact hf e he (by simpa using hek)
    | some x =>
      have hx : x.1 = k := by simpa using List.find?_some hf
      simp [hx]
  · rw [if_neg h]
    have hk : k ∉ tkeys tbl := fun hc => h ((hasKeyT_iff tbl k).mpr hc)
    rw [tlookup_append_right tbl _ k hk]
    simp [tlookup, List.lookup]

theorem tlookup_tinsert_other (tbl : Table) (k k' : String) (v : Tensor)
    (hne : k' ≠ k) :
    tlookup (tinsert tbl k v) k' = tlookup tbl k' := by
  unfold tinsert
  by_cases h : tbl.any (fun e => e.1 = k) = true
  · rw [if_pos h, tlookup_eq_find?, tlookup_eq_find?, List.find?_map]
    have hpred : ((fun e : String × Tensor => decide (e.1 = k')) ∘
        (fun e => if e.1 = k then (k, v) else e)) =
        (fun e : String × Tensor => decide (e.1 = k')) := by
      funext x
      by_cases hx : x.1 = k
      · simp [Function.comp, hx, show ¬(k = k') from fun hc => hne hc.symm]
      · simp [Function.comp, hx]
    rw [hpred]
    cases hf : tbl.find? (fun e => e.1 = k') with
    | none => rfl
    | some x =>
      have hx : x.1 = k' := by simpa using List.find?_some hf
      have hxk : ¬(x.1 = k) := fun hc => hne (hx ▸ hc ▸ rfl)
      simp [hxk]
  · rw [if_neg h]
    have hk : k ∉ tkeys tbl := fun hc => h ((hasKeyT_iff tbl k).mpr hc)
    by_cases hk' : k' ∈ tkeys tbl
    · exact tlookup_append_left tbl _ k' hk'
    · rw [tlookup_append_right tbl _ k' hk',
        (tlookup_eq_none_iff tbl k').mpr hk']
      simp [tlookup, List.lookup, show (k' == k) = false by simpa using hne]

/-- Lookup through a spec fold is unchanged for names the fold does not
touch. -/
theorem spec_fold_stable (nodes : List Node) (kids : Kids) (ot : Table) :
    ∀ (l : List Node) (tbl₀ : Table) (nm : String),
      (∀ n ∈ l, n.name ≠ nm) →
      tlookup (l.foldl
        (fun tbl n => tinsert tbl n.name (specVal nodes kids ot tbl n)) tbl₀) nm =
        tlookup tbl₀ nm := by
  intro l
  induction l with
  | nil => intro tbl₀ nm _; rfl
  | cons x l ih =>
    intro tbl₀ nm h
    rw [List.foldl_cons, ih _ nm (fun n hn => h n (List.mem_cons_of_mem _ hn))]
    exact tlookup_tinsert_other tbl₀ x.name nm _ (fun hc =>
      h x (List.mem_cons_self _ _) hc.symm)

theorem spec_fold_keys (nodes : List Node) (kids : Kids) (ot : Table) :
    ∀ (l : List Node) (tbl₀ : Table),
      (tkeys tbl₀ ++ nodeNames l).Nodup →
      tkeys (l.foldl
        (fun tbl n => tinsert tbl n.name (specVal nodes kids ot tbl n)) tbl₀) =
        tkeys tbl₀ ++ nodeNames l := by
  intro l
  induction l with
  | nil => intro tbl₀ _; simp [nodeNames]
  | cons x l ih =>
    intro tbl₀ hnd
    rw [nodeNames_cons] at hnd
    have hx : x.name ∉ tkeys tbl₀ := by
      intro hmem
      exact (List.nodup_append.mp hnd).2.2 hmem (by simp)
    rw [List.foldl_cons]
    have hkeys' : tkeys (tinsert tbl₀ x.name (specVal nodes kids ot tbl₀ x)) =
        tkeys tbl₀ ++ [x.name] := tkeys_tinsert_fresh tbl₀ x.name _ hx
    rw [ih (tinsert tbl₀ x.name (specVal nodes kids ot tbl₀ x))
      (by rw [hkeys', List.append_assoc]; simpa using hnd)]
    rw [hkeys', List.append_assoc, nodeNames_cons]
    rfl

theorem findIdx?_of_mem {α : Type} [DecidableEq α] (x : α) (ps : List α)
    (h : x ∈ ps) : ∃ idx, ps.findIdx? (fun p => p = x) = some idx := by
  induction ps with
  | nil => cases h
  | cons y ps ih =>
    by_cases hy : y = x
    · exact ⟨0, by simp [List.findIdx?_cons, hy]⟩
    · rcases List.mem_cons.mp h with rfl | h'
      · exact absurd rfl hy
      · obtain ⟨idx, hidx⟩ := ih h'
        exact ⟨idx + 1, by simp [List.findIdx?_cons, hy, hidx]⟩

theorem findIdx?_spec {α : Type} (p : α → Bool) (ps : List α) :
    ∀ (idx : Nat) (d : α), ps.findIdx? p = some idx →
      idx < ps.length ∧ p (ps.getD idx d) = true := by
  induction ps with
  | nil => intro idx d h; cases h
  | cons y ps ih =>
    intro idx d h
    by_cases hy : p y = true
    · rw [List.findIdx?_cons, if_pos hy] at h
      injection h with h'
      subst h'
      exact ⟨Nat.succ_pos _, by simpa using hy⟩
    · rw [List.findIdx?_cons, if_neg hy, List.findIdx?_succ] at h
      cases hidx : ps.findIdx? p with
      | none => rw [hidx] at h; cases h
      | some j =>
        rw [hidx] at h
        injection h with h'
        subst h'
        obtain ⟨hlt, hget⟩ := ih j d hidx
        exact ⟨by simpa using Nat.succ_lt_succ hlt, by simpa using hget⟩

/-- The location of a consumer: a consumer of a node sits strictly after
it in the finalized list, and is found by name lookup. -/
theorem consumer_step (nodes : List Node) (kids : Kids)
    (G : GoodGraph nodes kids) (a : List Node) (n : Node) (b : List Node)
    (hco : nodes = a ++ n :: b) (cnm : String)
    (hc : cnm ∈ kidsOf kids n.name) :
    ∃ (q b' : List Node) (cnode : Node),
      b = q ++ cnode :: b' ∧ cnode.name = cnm ∧
      PObj.node n.name ∈ cnode.parents ∧
      cnode ∈ nodes ∧ findNode nodes cnm = some cnode := by
  obtain ⟨cnode, hcm, hcn, hp⟩ := (G.kids_mem n.name cnm).mp hc
  obtain ⟨a', b', hsplit⟩ := List.append_of_mem hcm
  obtain ⟨nm, hnm_eq, hnm_mem⟩ := G.sorted a' cnode b' hsplit (PObj.node n.name) hp
  have hnm : n.name = nm := by injection hnm_eq
  subst hnm
  obtain ⟨q0, hq0, hq0name⟩ := List.mem_map.mp hnm_mem
  have hq0n : q0 = n := name_inj nodes G.nodup q0
    (by rw [hsplit]; exact List.mem_append_left _ hq0)
    n (by rw [hco]; simp) hq0name
  subst hq0n
  obtain ⟨p₁, p₂, hp12⟩ := List.append_of_mem hq0
  have hsplit₂ : nodes = p₁ ++ q0 :: (p₂ ++ cnode :: b') := by
    rw [hsplit, hp12]
    simp
  obtain ⟨ha, hx, hb⟩ := decomp_unique nodes G.nodup a b p₁ (p₂ ++ cnode :: b')
    q0 q0 hco hsplit₂ rfl
  refine ⟨p₂, b', cnode, hb, hcn, hp, hcm, ?_⟩
  rw [← hcn]
  exact findNode_eq nodes G.nodup cnode hcm

theorem reverse_decomp (nodes a b : List Node) (n : Node)
    (h : nodes.reverse = a ++ n :: b) :
    nodes = b.reverse ++ n :: a.reverse := by
  have := congrArg List.reverse h
  rw [List.reverse_reverse] at this
  rw [this]
  simp

/-- Reading the spec table at a node gives its spec value over the
prefix table at that node's fold step. -/
theorem specTable_lookup (nodes : List Node) (kids : Kids) (ot : Table)
    (hnd : (nodeNames nodes).Nodup) (a : List Node) (n : Node) (b : List Node)
    (hco : nodes.reverse = a ++ n :: b) :
    tlookup (specTable nodes kids ot) n.name =
      some (specVal nodes kids ot
        (a.foldl (fun tbl x => tinsert tbl x.name (specVal nodes kids ot tbl x)) []) n) := by
  have hndr : (nodeNames nodes.reverse).Nodup := by
    have : nodeNames nodes.reverse = (nodeNames nodes).reverse := by
      simp [nodeNames]
    rw [this]
    exact List.nodup_reverse.mpr hnd
  rw [hco] at hndr
  rw [nodeNames_append, nodeNames_cons] at hndr
  have hnb : ∀ m ∈ n :: b, m.name ≠ n.name → True := fun _ _ _ => trivial
  unfold specTable
  rw [hco, List.foldl_append, List.foldl_cons]
  set tA := a.foldl
    (fun tbl x => tinsert tbl x.name (specVal nodes kids ot tbl x)) []
  have hbstable : ∀ m ∈ b, m.name ≠ n.name := by
    intro m hm hc
    have h2 := (List.nodup_append.mp hndr).2.1
    rw [List.nodup_cons] at h2
    exact h2.1 (hc ▸ List.mem_map_of_mem _ hm)
  rw [spec_fold_stable nodes kids ot b _ n.name hbstable]
  exact tlookup_tinsert_self tA n.name _

/-- The spec table satisfies the backward recurrence with respect to
itself: at every node it holds the sink seed or the sum of the
consumers' contributions computed from the spec table's own entries. -/
theorem specTable_recurrence (nodes : List Node) (kids : Kids) (ot : Table)
    (G : GoodGraph nodes kids) (n : Node) (hn : n ∈ nodes) :
    tlookup (specTable nodes kids ot) n.name =
      some (specVal nodes kids ot (specTable nodes kids ot) n) := by
  have hnr : n ∈ nodes.reverse := List.mem_reverse.mpr hn
  obtain ⟨a, b, hco⟩ := List.append_of_mem hnr
  rw [specTable_lookup nodes kids ot G.nodup a n b hco]
  congr 1
  set tA := a.foldl
    (fun tbl x => tinsert tbl x.name (specVal nodes kids ot tbl x)) []
  have horig : nodes = b.reverse ++ n :: a.reverse := reverse_decomp nodes a b n hco
  have hndr : (nodeNames a ++ n.name :: nodeNames b).Nodup := by
    have h0 : nodeNames nodes.reverse = (nodeNames nodes).reverse := by
      simp [nodeNames]
    have h1 : (nodeNames nodes.reverse).Nodup := by
      rw [h0]
      exact List.nodup_reverse.mpr G.nodup
    rw [hco, nodeNames_append, nodeNames_cons] at h1
    exact h1
  have hstable : ∀ cnm ∈ kidsOf kids n.name, tlookup tA cnm =
      tlookup (specTable nodes kids ot) cnm := by
    intro cnm hc
    obtain ⟨q, b', cnode, hdecomp, hcn, hp, hcm, hfind⟩ :=
      consumer_step nodes kids G b.reverse n a.reverse horig cnm hc
    have hcna : cnm ∈ nodeNames a := by
      have h1 : cnode ∈ a.reverse := by rw [hdecomp]; simp
      rw [← hcn]
      exact List.mem_map_of_mem _ (List.mem_reverse.mp h1)
    have hnotb : ∀ m ∈ n :: b, m.name ≠ cnm := by
      intro m hm hc2
      have h3 : cnm ∈ n.name :: nodeNames b := by
        rw [← hc2]
        rcases List.mem_cons.mp hm with rfl | hmb
        · exact List.mem_cons_self _ _
        · exact List.mem_cons_of_mem _ (List.mem_map_of_mem _ hmb)
      exact (List.nodup_append.mp hndr).2.2 hcna h3
    unfold specTable
    rw [hco, List.foldl_append]
    show tlookup tA cnm = tlookup ((n :: b).foldl _ tA) cnm
    rw [spec_fold_stable nodes kids ot (n :: b) tA cnm hnotb]
  unfold specVal
  by_cases hk : (kidsOf kids n.name).isEmpty
  · rw [if_pos hk, if_pos hk]
  · rw [if_neg hk, if_neg hk]
    congr 1
    refine List.map_congr_left ?_
    intro cnm hc
    unfold contribOf
    rw [hstable cnm hc]

/-- The spec table holds exactly one entry per node name. -/
theorem specTable_mem (nodes : List Node) (kids : Kids) (ot : Table)
    (hnd : (nodeNames nodes).Nodup) :
    ∀ nm, (∃ v, tlookup (specTable nodes kids ot) nm = some v) ↔
      nm ∈ nodeNames nodes := by
  intro nm
  rw [tlookup_isSome_iff]
  unfold specTable
  rw [spec_fold_keys nodes kids ot nodes.reverse [] (by
    show (tkeys [] ++ nodeNames nodes.reverse).Nodup
    have hrev : nodeNames nodes.reverse = (nodeNames nodes).reverse := by
      simp [nodeNames]
    simp only [tkeys, List.map_nil, List.nil_append, hrev]
    exact List.nodup_reverse.mpr hnd)]
  simp [nodeNames, tkeys]

theorem specTable_keys_nodup (nodes : List Node) (kids : Kids) (ot : Table)
    (hnd : (nodeNames nodes).Nodup) :
    (tkeys (specTable nodes kids ot)).Nodup := by
  unfold specTable
  rw [spec_fold_keys nodes kids ot nodes.reverse [] (by
    show (tkeys [] ++ nodeNames nodes.reverse).Nodup
    have hrev : nodeNames nodes.reverse = (nodeNames nodes).reverse := by
      simp [nodeNames]
    simp only [tkeys, List.map_nil, List.nil_append, hrev]
    exact List.nodup_reverse.mpr hnd)]
  show (tkeys [] ++ nodeNames nodes.reverse).Nodup
  have hrev : nodeNames nodes.reverse = (nodeNames nodes).reverse := by
    simp [nodeNames]
  simp only [tkeys, List.map_nil, List.nil_append, hrev]
  exact List.nodup_reverse.mpr hnd

/-- The contract every backward rule satisfies on size: one gradient per
declared input. -/
def LenOk (nd : Node) : Prop :=
  ∀ o, nd.op = NodeOp.op o →
    ∀ g args, args.length = o.num_inputs →
      (o.backward g args).length = o.num_inputs

/-- The contract every backward rule satisfies on shapes: each gradient
has the shape of the corresponding input, provided the output gradient
has the forward value's shape. -/
def ShapeOk (nd : Node) : Prop :=
  ∀ o, nd.op = NodeOp.op o →
    ∀ g args, args.length = o.num_inputs → g.shape = (o.forward args).shape →
      ∀ i, i < o.num_inputs →
        ((o.backward g args).getD i default).shape = (args.getD i default).shape

/-- What the activation table produced by a successful forward pass
satisfies. -/
structure OTSpec (nodes : List Node) (ot : Table) : Prop where
  cov : ∀ nm, (∃ v, tlookup ot nm = some v) ↔ nm ∈ nodeNames nodes
  fwd : ∀ n ∈ nodes, ∀ o, n.op = NodeOp.op o →
    tlookup ot n.name = some (o.forward (actsOf ot n))

theorem dsum_shape_head (t : Tensor) (ts : List Tensor) :
    (dsum (t :: ts)).shape = t.shape := by
  show (ts.foldl Tensor.add t).shape = t.shape
  induction ts generalizing t with
  | nil => rfl
  | cons s ts ih => rw [List.foldl_cons]; exact ih (t.add s)

/-- A consumer's operation is a forward/backward operation (a value node
has no parents, hence no parent slot naming anyone). -/
theorem consumer_op (nodes : List Node) (kids : Kids) (G : GoodGraph nodes kids)
    (cnode : Node) (hcm : cnode ∈ nodes) (hpne : cnode.parents ≠ []) :
    ∃ o, cnode.op = NodeOp.op o := by
  cases hopc : cnode.op with
  | value =>
    exfalso
    have ha := G.arity cnode hcm
    rw [hopc] at ha
    exact hpne (List.eq_nil_of_length_eq_zero ha)
  | op o => exact ⟨o, rfl⟩

/-- Every entry of the spec gradient table has the shape of the node's
activation. -/
theorem specTable_shape_aux (nodes : List Node) (kids : Kids) (ot : Table)
    (G : GoodGraph nodes kids) (OT : OTSpec nodes ot)
    (hShape : ∀ nd ∈ nodes, ShapeOk nd) :
    ∀ (k : Nat) (a : List Node) (n : Node) (b : List Node),
      nodes = a ++ n :: b → b.length < k →
      ∃ v, tlookup (specTable nodes kids ot) n.name = some v ∧
        v.shape = ((tlookup ot n.name).getD default).shape := by
  intro k
  induction k with
  | zero => intro a n b _ h; omega
  | succ k ih =>
    intro a n b hco hlen
    have hn : n ∈ nodes := by rw [hco]; simp
    rw [specTable_recurrence nodes kids ot G n hn]
    refine ⟨_, rfl, ?_⟩
    unfold specVal
    by_cases hk : (kidsOf kids n.name).isEmpty = true
    · rw [if_pos hk]
      rfl
    · rw [if_neg hk]
      obtain ⟨c₀, cs, hkids⟩ : ∃ c₀ cs, kidsOf kids n.name = c₀ :: cs := by
        cases hkk : kidsOf kids n.name with
        | nil => rw [hkk] at hk; simp at hk
        | cons c₀ cs => exact ⟨c₀, cs, rfl⟩
      rw [hkids, List.map_cons, dsum_shape_head]
      obtain ⟨q, b', cnode, hdec, hcn, hp, hcm, hfind⟩ :=
        consumer_step nodes kids G a n b hco c₀ (by rw [hkids]; simp)
      have hpne : cnode.parents ≠ [] := by
        intro h0
        rw [h0] at hp
        cases hp
      obtain ⟨o, hop⟩ := consumer_op nodes kids G cnode hcm hpne
      obtain ⟨idx, hidx⟩ := findIdx?_of_mem (PObj.node n.name) cnode.parents hp
      obtain ⟨hidxlt, hidxget⟩ :=
        findIdx?_spec _ cnode.parents idx (PObj.strObj "") hidx
      have hco' : nodes = (a ++ n :: q) ++ cnode :: b' := by
        rw [hco, hdec]
        simp
      have hblen : b'.length < k := by
        have hb : b.length = q.length + 1 + b'.length := by
          rw [hdec]
          simp
          omega
        omega
      obtain ⟨cv, hcv, hcvshape⟩ := ih (a ++ n :: q) cnode b' hco' hblen
      have hfwd := OT.fwd cnode hcm o hop
      unfold contribOf
      rw [hfind]
      show ((match cnode.op, indexOfNode n.name cnode.parents with
        | NodeOp.op o, some idx =>
          (o.backward ((tlookup (specTable nodes kids ot) c₀).getD default)
            (actsOf ot cnode)).getD idx default
        | _, _ => default).shape) = _
      rw [hop, show indexOfNode n.name cnode.parents = some idx from hidx]
      have hcog : (tlookup (specTable nodes kids ot) c₀).getD default = cv := by
        rw [← hcn, hcv]
        rfl
      rw [hcog]
      have hargslen : (actsOf ot cnode).length = o.num_inputs := by
        have ha := G.arity cnode hcm
        rw [hop] at ha
        rw [actsOf, List.length_map]
        exact ha
      have hcvshape' : cv.shape = (o.forward (actsOf ot cnode)).shape := by
        rw [hcvshape, hcn, ← hcn, hfwd]
        rfl
      have hlt : idx < o.num_inputs := by
        have ha := G.arity cnode hcm
        rw [hop] at ha
        have ha' : cnode.parents.length = o.num_inputs := ha
        exact ha' ▸ hidxlt
      have hbs := hShape cnode hcm o hop cv (actsOf ot cnode) hargslen hcvshape' idx hlt
      rw [hbs]
      have hpidx : cnode.parents.getD idx (PObj.strObj "") = PObj.node n.name := by
        simpa using hidxget
      have hargsidx : (actsOf ot cnode).getD idx default =
          (tlookup ot n.name).getD default := by
        rw [actsOf, List.getD_eq_getElem _ _ (by simpa using hidxlt)]
        rw [List.getElem_map]
        rw [List.getD_eq_getElem _ _ hidxlt] at hpidx
        rw [hpidx]
      rw [hargsidx]

/-- A concrete diamond graph: `A → B`, `A → C`, `B,C → D`. -/
def diamondNodes : List Node :=
  [⟨"A", NodeOp.value, []⟩,
   ⟨"B", NodeOp.op opDouble, [PObj.node "A"]⟩,
   ⟨"C", NodeOp.op opTriple, [PObj.node "A"]⟩,
   ⟨"D", NodeOp.op OpSum, [PObj.node "B", PObj.node "C"]⟩]

/-- The diamond graph before finalization. -/
def diamondGraph : Graph := { nodes := diamondNodes }

/-- Witness for C1: the diamond graph satisfies the builder invariants
and is correctly finalized. -/
theorem finalize_topological_order_witness :
    (nodeNames diamondGraph.nodes).Nodup ∧
      parentsBack [] diamondGraph.nodes = true ∧
      diamondGraph.nodes.filter (fun n => n.parents.isEmpty) ≠ [] ∧
      (∃ g' internal kids,
        diamondGraph.done = Except.ok g' ∧
        g'.nodes = diamondGraph.nodes.filter (fun n => n.parents.isEmpty) ++ internal ∧
        g'.parameter_nodes =
          some (diamondGraph.nodes.filter (fun n => n.parents.isEmpty)) ∧
        g'.kids = some kids ∧
        (∀ n ∈ diamondGraph.nodes.filter (fun n => n.parents.isEmpty), n.parents = []) ∧
        (∀ n ∈ internal, n.parents ≠ []) ∧
        diamondGraph.nodes.Perm g'.nodes ∧
        (∀ l1 n l2, internal = l1 ++ n :: l2 →
          ∀ p ∈ n.parents, ∃ nm, p = PObj.node nm ∧
            (nm ∈ nodeNames (diamondGraph.nodes.filter (fun n => n.parents.isEmpty)) ∨
              nm ∈ nodeNames l1))) :=
  ⟨by decide, by decide,
    fun h => absurd (congrArg List.length h) (by decide),
    finalize_topological_order diamondGraph (by decide) (by decide)
      (fun h => absurd (congrArg List.length h) (by decide))⟩

/-- A graph in which one node fills both parent slots of its consumer:
`D = opAsym(A, A)`. -/
def dupNodes : List Node :=
  [⟨"A", NodeOp.value, []⟩,
   ⟨"D", NodeOp.op opAsym, [PObj.node "A", PObj.node "A"]⟩]

/-- The duplicate-slot graph before finalization. -/
def dupGraph : Graph := { nodes := dupNodes }

/-- Claim C8, demonstrated end to end on `dupGraph` with the asymmetric
operation (`backward` components `[g, 3·g]`): `update_children` appends
the consumer once per slot, the first matching parent index is used for
both occurrences, and the accumulated gradient is the first-slot
component counted once per occurrence (`b₀ + b₀`) — not the sum of the
two distinct slot components (`b₀ + b₁`), so the later duplicate slot's
component is never used. -/
theorem duplicate_slot_gradient :
    kidsOf (ucPure dupNodes) "A" = ["D", "D"] ∧
      indexOfNode "A" [PObj.node "A", PObj.node "A"] = some 0 ∧
      (do
        let g' ← dupGraph.done
        let r ← g'.forward [("A", (⟨[2], [1, 2]⟩ : Tensor))]
        r.2.2.backward : Except Err Table) =
        Except.ok [("D", ⟨[2], [1, 1]⟩), ("A", ⟨[2], [2, 2]⟩)] ∧
      (⟨[2], [2, 2]⟩ : Tensor) =
        (Tensor.add
          ((opAsym.backward (Tensor.ones [2]) [⟨[2], [1, 2]⟩, ⟨[2], [1, 2]⟩]).getD 0 default)
          ((opAsym.backward (Tensor.ones [2]) [⟨[2], [1, 2]⟩, ⟨[2], [1, 2]⟩]).getD 0 default)) ∧
      (⟨[2], [2, 2]⟩ : Tensor) ≠
        (Tensor.add
          ((opAsym.backward (Tensor.ones [2]) [⟨[2], [1, 2]⟩, ⟨[2], [1, 2]⟩]).getD 0 default)
          ((opAsym.backward (Tensor.ones [2]) [⟨[2], [1, 2]⟩, ⟨[2], [1, 2]⟩]).getD 1 default)) := by
  exact ⟨by decide, by decide, by rfl, by decide, by decide⟩

/-- The explicit size loop agrees with the product of the dimensions. -/
theorem size_from_shape_eq_prod (shape : List Nat) :
    size_from_shape shape = shape.prod := by
  rw [size_from_shape, List.prod_eq_foldl]

/-- The flatten/unflatten loop, started past an already-consumed flat
prefix, reproduces well-formed tensors exactly. -/
theorem array_1d_loop_roundtrip (ts : List Tensor) (pre : List ℤ)
    (hwf : ∀ t ∈ ts, t.wf) :
    array_1d_loop (pre ++ arrays_nd_array_1d ts) (ts.map Tensor.shape)
      pre.length = Except.ok ts := by
  induction ts generalizing pre with
  | nil => rfl
  | cons t ts ih =>
    have hlen : t.data.length = size_from_shape t.shape := by
      rw [size_from_shape_eq_prod]
      exact hwf t (List.mem_cons_self t ts)
    have hflat : arrays_nd_array_1d (t :: ts) =
        t.data ++ arrays_nd_array_1d ts := by
      simp [arrays_nd_array_1d]
    have hdrop : (pre ++ arrays_nd_array_1d (t :: ts)).drop pre.length =
        t.data ++ arrays_nd_array_1d ts := by
      rw [hflat, List.drop_left]
    have htake : (t.data ++ arrays_nd_array_1d ts).take (size_from_shape t.shape) =
        t.data := by
      rw [← hlen, List.take_left]
    have hnext := ih (pre ++ t.data) (fun u hu => hwf u (List.mem_cons_of_mem _ hu))
    have harr : (pre ++ t.data) ++ arrays_nd_array_1d ts =
        pre ++ arrays_nd_array_1d (t :: ts) := by
      rw [hflat, List.append_assoc]
    rw [harr, List.length_append, hlen] at hnext
    simp only [List.map_cons, array_1d_loop, hdrop, htake, hlen, if_true, hnext]
    rfl

/-- Claim C6: for every list of well-formed tensors, unflattening the
flattened 1-D concatenation with the original shapes reproduces the
original tensors exactly (same shapes, identical values). -/
theorem flatten_unflatten_roundtrip (ts : List Tensor)
    (hwf : ∀ t ∈ ts, t.wf) :
    array_1d_arrays_nd (arrays_nd_array_1d ts) (ts.map Tensor.shape) =
      Except.ok ts := by
  have h := array_1d_loop_roundtrip ts [] hwf
  simpa [array_1d_arrays_nd] using h

/-- Witness for C6: a concrete two-tensor list (a 2×2 matrix and a
3-vector) survives the round trip. -/
theorem flatten_unflatten_roundtrip_witness :
    (∀ t ∈ [(⟨[2, 2], [1, 2, 3, 4]⟩ : Tensor), ⟨[3], [5, 6, 7]⟩], t.wf) ∧
      array_1d_arrays_nd
          (arrays_nd_array_1d [⟨[2, 2], [1, 2, 3, 4]⟩, ⟨[3], [5, 6, 7]⟩])
          ([⟨[2, 2], [1, 2, 3, 4]⟩, (⟨[3], [5, 6, 7]⟩ : Tensor)].map Tensor.shape) =
        Except.ok [⟨[2, 2], [1, 2, 3, 4]⟩, ⟨[3], [5, 6, 7]⟩] :=
  ⟨by decide, flatten_unflatten_roundtrip _ (by decide)⟩

/-! ### Gradient checker (claims C4 and C10) -/

/-- The centered-difference gradient vector: component `i` is the
forward function at the parameters with component `i` increased by the
perturbation, minus at component `i` decreased by it, divided by twice
the perturbation. -/
noncomputable def fdSpec (p : RVec) (f : RVec → ℝ) (perturbation : ℝ) (n : Nat) : RVec :=
  (List.range n).map (fun i =>
    (f (p.set i (p.getD i 0 + perturbation)) -
      f (p.set i (p.getD i 0 - perturbation))) / (2 * perturbation))

/-- The perturbation loop never writes to the `parameters` or `grad`
arrays: every write goes to a copy or to `fd_grad`. -/
theorem gc_fold_frame (f : RVec → ℝ) (ε : ℝ) (l : List Nat)
    (st : RVec × RVec × RVec) :
    (l.foldl (fun st i => gcStep f ε i st) st).1 = st.1 ∧
      (l.foldl (fun st i => gcStep f ε i st) st).2.1 = st.2.1 := by
  induction l generalizing st with
  | nil => exact ⟨rfl, rfl⟩
  | cons i l ih => exact (ih (gcStep f ε i st))

/-- After the loop has run over `range n`, `fd_grad` holds the first `n`
centered differences followed by the untouched zeros. -/
theorem gc_fold_fd (p g₀ : RVec) (f : RVec → ℝ) (ε : ℝ) (n m : Nat)
    (hnm : n ≤ m) :
    ((List.range n).foldl (fun st i => gcStep f ε i st)
        (p, g₀, List.replicate m (0 : ℝ))).2.2 =
      fdSpec p f ε n ++ List.replicate (m - n) 0 := by
  induction n with
  | zero => simp [fdSpec]
  | succ n ih =>
    have hn : n ≤ m := Nat.le_of_succ_le hnm
    rw [List.range_succ, List.foldl_append]
    have hfst := gc_fold_frame f ε (List.range n) (p, g₀, List.replicate m (0 : ℝ))
    have harr := ih hn
    set st := (List.range n).foldl (fun st i => gcStep f ε i st)
      (p, g₀, List.replicate m (0 : ℝ)) with hst
    have hlenfd : (fdSpec p f ε n).length = n := by
      simp [fdSpec]
    have hsplit : st.2.2.set n
        ((f (st.1.set n (st.1.getD n 0 + ε)) -
          f (st.1.set n (st.1.getD n 0 - ε))) / (2 * ε)) =
        fdSpec p f ε (n + 1) ++ List.replicate (m - (n + 1)) 0 := by
      rw [harr, hfst.1]
      have hrep : List.replicate (m - n) (0 : ℝ) =
          (0 : ℝ) :: List.replicate (m - (n + 1)) 0 := by
        have : m - n = (m - (n + 1)) + 1 := by omega
        rw [this, List.replicate_succ]
      rw [hrep]
      have hsetr : (fdSpec p f ε n ++
          (0 : ℝ) :: List.replicate (m - (n + 1)) 0).set n
            ((f (p.set n (p.getD n 0 + ε)) -
              f (p.set n (p.getD n 0 - ε))) / (2 * ε)) =
          fdSpec p f ε n ++
            (((f (p.set n (p.getD n 0 + ε)) -
              f (p.set n (p.getD n 0 - ε))) / (2 * ε)) ::
              List.replicate (m - (n + 1)) 0) := by
        rw [List.set_append_right _ _ (by omega : (fdSpec p f ε n).length ≤ n)]
        rw [hlenfd]
        simp
      rw [hsetr]
      have hfd1 : fdSpec p f ε (n + 1) = fdSpec p f ε n ++
          [(f (p.set n (p.getD n 0 + ε)) -
            f (p.set n (p.getD n 0 - ε))) / (2 * ε)] := by
        rw [fdSpec, fdSpec, List.range_succ, List.map_append, List.map_singleton]
      rw [hfd1, List.append_assoc]
      rfl
    simpa [gcStep] using hsplit

/-- Claim C4: `gradient_check` computes the centered-difference gradient
componentwise and returns the relative L2 error
`‖fd_grad − grad‖ / (‖fd_grad‖ + ‖grad‖)`; the `equality_threshold`
argument never influences the result. -/
theorem gradient_check_spec (p g : RVec) (f : RVec → ℝ) (ε t₁ t₂ : ℝ)
    (h : p.length = g.length) :
    gradient_check p g f ε t₁ =
      Except.ok (norm2 (List.zipWith (fun a b => a - b) (fdSpec p f ε g.length) g) /
        (norm2 (fdSpec p f ε g.length) + norm2 g)) ∧
      gradient_check p g f ε t₁ = gradient_check p g f ε t₂ := by
  constructor
  · rw [gradient_check, gradient_check_st, if_pos h]
    have hfd := gc_fold_fd p g f ε g.length g.length (le_refl _)
    have hg := gc_fold_frame f ε (List.range g.length)
      (p, g, List.replicate g.length (0 : ℝ))
    simp only [List.length_replicate, Nat.sub_self, List.replicate_zero,
      List.append_nil] at hfd ⊢
    rw [hfd, hg.2]
  · rw [gradient_check, gradient_check, gradient_check_st, gradient_check_st]

/-- Witness for C4 at a concrete input: one parameter, one gradient
component, the forward function reading component 0. -/
theorem gradient_check_spec_witness :
    ([(1 : ℝ)].length = [(2 : ℝ)].length) ∧
      (gradient_check [1] [2] (fun v => v.getD 0 0) 1 0 =
        Except.ok (norm2 (List.zipWith (fun a b => a - b)
            (fdSpec [1] (fun v => v.getD 0 0) 1 [(2 : ℝ)].length) [2]) /
          (norm2 (fdSpec [1] (fun v => v.getD 0 0) 1 [(2 : ℝ)].length) + norm2 [2])) ∧
        gradient_check [1] [2] (fun v => v.getD 0 0) 1 0 =
          gradient_check [1] [2] (fun v => v.getD 0 0) 1 7) :=
  ⟨rfl, gradient_check_spec [1] [2] (fun v => v.getD 0 0) 1 0 7 rfl⟩

/-- Claim C10: `gradient_check` leaves the `parameters` and `grad`
arrays exactly as it found them — every perturbed evaluation runs on a
fresh copy of the parameter vector. -/
theorem gradient_check_no_mutation (p g : RVec) (f : RVec → ℝ) (ε t : ℝ) :
    (gradient_check_st p g f ε t).2 = (p, g) := by
  rw [gradient_check_st]
  by_cases h : p.length = g.length
  · rw [if_pos h]
    have hfr := gc_fold_frame f ε (List.range (List.replicate g.length (0 : ℝ)).length)
      (p, g, List.replicate g.length (0 : ℝ))
    simp only []
    rw [hfr.1, hfr.2]
  · rw [if_neg h]

/-! ### Parent resolution mode (claim C9) and `Graph.add` errors (claim C7) -/

/-- Claim C9: with a non-empty parent sequence, the first element alone
decides the resolution mode.  When it is a string, every element —
including any later direct reference — goes through the by-name dict
lookup; otherwise every element — including any later string — is used
directly as it stands, with no lookup at all.  The concrete third part
shows a mixed reference-then-name sequence leaving the known name `"B"`
as a raw stored string rather than resolving it. -/
theorem resolveInputs_mode (nodes : List Node) :
    (∀ (s : String) (rest : List PRef),
      resolveInputs nodes (PRef.str s :: rest) =
        (PRef.str s :: rest).mapM (fun r =>
          match r with
          | PRef.str s' =>
            match findNode nodes s' with
            | some nd => Except.ok (PObj.node nd.name)
            | none => Except.error Err.keyError
          | PRef.ref _ => Except.error Err.keyError)) ∧
    (∀ (nm : String) (rest : List PRef),
      resolveInputs nodes (PRef.ref nm :: rest) =
        Except.ok ((PRef.ref nm :: rest).map (fun r =>
          match r with
          | PRef.str s => PObj.strObj s
          | PRef.ref n => PObj.node n))) ∧
    resolveInputs [⟨"B", NodeOp.value, []⟩] [PRef.ref "A", PRef.str "B"] =
      Except.ok [PObj.node "A", PObj.strObj "B"] :=
  ⟨fun _ _ => rfl, fun _ _ => rfl, rfl⟩

/-- Counterexample to claim C7 as stated: adding a fresh node `"n"`
(no duplicate) with the right number of parents (two, matching
`OpSum.num_inputs`) does not succeed when the parent names are not
already-added nodes — the by-name dict lookup raises `KeyError`. -/
theorem add_unresolved_parent_counterexample :
    Graph.empty.nodes.any (fun n => n.name = "n") = false ∧
      OpSum.num_inputs = [PRef.str "a", PRef.str "b"].length ∧
      Graph.empty.add (NodeOp.op OpSum) "n" (some [PRef.str "a", PRef.str "b"]) =
        Except.error Err.keyError :=
  ⟨rfl, rfl, rfl⟩

/-- Claim C7 as amended: `add` fails with the duplicate-name error when
the name is taken; otherwise fails with the arity error when the parent
count does not match the declared input count (`None` counting as zero
and an explicit empty sequence as zero parents); otherwise its outcome
is parent resolution's — registering the node on success and propagating
the lookup error of an unresolved parent reference. -/
theorem add_spec (g : Graph) (op : NodeOp) (name : String)
    (inputs : Option (List PRef)) :
    (g.nodes.any (fun n => n.name = name) = true →
      g.add op name inputs = Except.error Err.duplicateNode) ∧
    (g.nodes.any (fun n => n.name = name) = false →
      (inputs.isNone && op.num_inputs == 0
        || inputs.isSome && op.num_inputs == (inputs.getD []).length) = false →
      g.add op name inputs = Except.error Err.arityMismatch) ∧
    (g.nodes.any (fun n => n.name = name) = false →
      (inputs.isNone && op.num_inputs == 0
        || inputs.isSome && op.num_inputs == (inputs.getD []).length) = true →
      g.add op name inputs = (resolveOpt g.nodes inputs).map
        (fun ps => { g with nodes := g.nodes ++ [⟨name, op, ps⟩] })) := by
  refine ⟨fun hdup => ?_, fun hdup harity => ?_, fun hdup harity => ?_⟩
  · rw [Graph.add, if_pos hdup]
    rfl
  · rw [Graph.add, if_neg (by rw [hdup]; exact Bool.false_ne_true),
      if_pos (by rw [harity]; rfl)]
    rfl
  · rw [Graph.add, if_neg (by rw [hdup]; exact Bool.false_ne_true),
      if_neg (by rw [harity]; exact Bool.false_ne_true)]
    cases hres : resolveOpt g.nodes inputs with
    | ok ps => rfl
    | error e => rfl

/-- Witness for the amended C7, exercising the success branch: a graph
holding node `"a"` accepts a one-input node `"n"` with parent `"a"` and
registers it. -/
theorem add_spec_witness :
    (({ nodes := [⟨"a", NodeOp.value, []⟩] } : Graph).nodes.any
        (fun n => n.name = "n") = false) ∧
      (((some [PRef.str "a"] : Option (List PRef)).isNone && (NodeOp.op opDouble).num_inputs == 0
        || (some [PRef.str "a"] : Option (List PRef)).isSome &&
          (NodeOp.op opDouble).num_inputs ==
            ((some [PRef.str "a"] : Option (List PRef)).getD []).length) = true) ∧
      ({ nodes := [⟨"a", NodeOp.value, []⟩] } : Graph).add (NodeOp.op opDouble) "n"
          (some [PRef.str "a"]) =
        (resolveOpt ({ nodes := [⟨"a", NodeOp.value, []⟩] } : Graph).nodes
            (some [PRef.str "a"])).map
          (fun ps => { ({ nodes := [⟨"a", NodeOp.value, []⟩] } : Graph) with
            nodes := [⟨"a", NodeOp.value, []⟩] ++ [⟨"n", NodeOp.op opDouble, ps⟩] }) :=
  ⟨rfl, rfl,
    (add_spec { nodes := [⟨"a", NodeOp.value, []⟩] } (NodeOp.op opDouble) "n"
      (some [PRef.str "a"])).2.2 rfl rfl⟩


/-! ### Backward-pass correctness (claims C2, C3) and forward preconditions (claim C5) -/
/-- Writing one consumer's gradients leaves other consumers' cache reads unchanged. -/
theorem pg2_pginsert_other (tbl : PGTable) (k k' : String) (v : List Tensor)
    (hne : k' ≠ k) :
    ((pginsert tbl k v).find? (fun e => e.1 = k')).map (fun e => e.2) =
      (tbl.find? (fun e => e.1 = k')).map (fun e => e.2) := by
  rw [pgfind_pginsert_other tbl k k' v hne]
  cases hf : tbl.find? (fun e => e.1 = k') with
  | none => rfl
  | some e =>
    have hek' : e.1 = k' := by simpa using List.find?_some hf
    have hek : ¬(e.1 = k) := fun hc => hne (hek' ▸ hc ▸ rfl)
    simp [hek]

/-- One consumer-loop step when the consumer's input gradients are already cached in `parameter_grad_table`. -/
theorem consumerLoop_cons_cached (nodes : List Node) (ot : Table)
    (bg : Node → BPState → Except Err (Tensor × BPState)) (node : Node)
    (cnm : String) (rest : List String) (st : BPState) (consumer : Node)
    (idx : Nat) (grads : List Tensor)
    (hfind : findNode nodes cnm = some consumer)
    (hidx : indexOfNode node.name consumer.parents = some idx)
    (hpg : (st.pg.find? (fun e => e.1 = consumer.name)).map (fun e => e.2) =
      some grads)
    (hlt : idx < grads.length) :
    consumerLoop nodes ot bg node (cnm :: rest) st = (do
      let (gs, st'') ← consumerLoop nodes ot bg node rest st
      Except.ok (grads.get ⟨idx, hlt⟩ :: gs, st'')) := by
  simp only [consumerLoop, hfind, hidx, hpg, dif_pos hlt, except_bind_ok]

/-- One consumer-loop step when the consumer's input gradients are not cached: gather activations, recurse for the consumer's output gradient, call its `backward`, cache, and pick the component. -/
theorem consumerLoop_cons_fresh (nodes : List Node) (ot : Table)
    (bg : Node → BPState → Except Err (Tensor × BPState)) (node : Node)
    (cnm : String) (rest : List String) (st : BPState) (consumer : Node)
    (idx : Nat) (o : Op) (cog : Tensor) (st₁ : BPState)
    (hfind : findNode nodes cnm = some consumer)
    (hidx : indexOfNode node.name consumer.parents = some idx)
    (hpg : (st.pg.find? (fun e => e.1 = consumer.name)).map (fun e => e.2) = none)
    (hacts : consumer.parents.mapM (fun p =>
      match p with
      | PObj.node nm =>
        match tlookup ot nm with
        | some t => Except.ok t
        | none => Except.error Err.keyError
      | PObj.strObj _ => Except.error Err.attributeError) =
      Except.ok (actsOf ot consumer))
    (hbg : bg consumer st = Except.ok (cog, st₁))
    (hop : consumer.op = NodeOp.op o)
    (hlt : idx < (o.backward cog (actsOf ot consumer)).length)
    (st₂ : BPState)
    (hst₂ : st₂ = ⟨pginsert st₁.pg consumer.name
      (o.backward cog (actsOf ot consumer)), st₁.og⟩) :
    consumerLoop nodes ot bg node (cnm :: rest) st = (do
      let (gs, st'') ← consumerLoop nodes ot bg node rest st₂
      Except.ok ((o.backward cog (actsOf ot consumer)).get ⟨idx, hlt⟩ :: gs,
        st'')) := by
  subst hst₂
  simp only [consumerLoop, hfind, hidx, hpg, hacts, except_bind_ok, hbg, hop,
    dif_pos hlt]

/-- The gradient list the consumer loop caches for a consumer in `parameter_grad_table`, predicted from the spec table: its `backward` at its spec output gradient and its input activations. -/
def pgSpec (nodes : List Node) (kids : Kids) (ot : Table) (cnm : String) :
    List Tensor :=
  match findNode nodes cnm with
  | none => []
  | some c =>
    match c.op with
    | NodeOp.value => []
    | NodeOp.op o =>
      o.backward ((tlookup (specTable nodes kids ot) cnm).getD default)
        (actsOf ot c)

/-- Evaluation of `pgSpec` at a resolved consumer. -/
theorem pgSpec_eq (nodes : List Node) (kids : Kids) (ot : Table) (cnm : String)
    (cnode : Node) (o : Op)
    (hfind : findNode nodes cnm = some cnode) (hop : cnode.op = NodeOp.op o) :
    pgSpec nodes kids ot cnm =
      o.backward ((tlookup (specTable nodes kids ot) cnm).getD default)
        (actsOf ot cnode) := by
  unfold pgSpec
  rw [hfind]
  show (match cnode.op with
    | NodeOp.value => []
    | NodeOp.op o =>
      o.backward ((tlookup (specTable nodes kids ot) cnm).getD default)
        (actsOf ot cnode)) = _
  rw [hop]

/-- Evaluation of `contribOf` at a resolved consumer with a resolved parent index. -/
theorem contribOf_eq (nodes : List Node) (ot tbl : Table) (nm cnm : String)
    (cnode : Node) (o : Op) (idx : Nat)
    (hfind : findNode nodes cnm = some cnode) (hop : cnode.op = NodeOp.op o)
    (hidx : indexOfNode nm cnode.parents = some idx) :
    contribOf nodes ot tbl nm cnm =
      (o.backward ((tlookup tbl cnm).getD default) (actsOf ot cnode)).getD idx
        default := by
  unfold contribOf
  rw [hfind]
  show (match cnode.op, indexOfNode nm cnode.parents with
    | NodeOp.op o, some idx =>
      (o.backward ((tlookup tbl cnm).getD default) (actsOf ot cnode)).getD idx
        default
    | _, _ => default) = _
  rw [hop, hidx]

/-- `List.get` agrees with `getD` inside the bound. -/
theorem get_eq_getD (l : List Tensor) (i : Nat) (h : i < l.length) :
    l.get ⟨i, h⟩ = l.getD i default := by
  rw [List.getD_eq_getElem l default h]
  rfl

/-- The invariant `build_grad` maintains on the two mutable tables: the output-gradient table has unique keys and agrees pointwise with the spec table, every sink is seeded, and every cached gradient list is the one the spec predicts. -/
def BPInv (nodes : List Node) (kids : Kids) (ot : Table) (st : BPState) : Prop :=
  (tkeys st.og).Nodup ∧
  (∀ nm v, tlookup st.og nm = some v →
    tlookup (specTable nodes kids ot) nm = some v) ∧
  (∀ n ∈ nodes, (kidsOf kids n.name).isEmpty = true →
    ∃ v, tlookup st.og n.name = some v) ∧
  (∀ cnm gs, (st.pg.find? (fun e => e.1 = cnm)).map (fun e => e.2) = some gs →
    gs = pgSpec nodes kids ot cnm)

/-- The consumer loop, assuming the recursive `build_grad` call is correct at the remaining depth: it succeeds, collects exactly one spec contribution per consumer occurrence, and preserves the invariant, touching only output gradients of nodes after the current one. -/
theorem consumerLoop_ok (nodes : List Node) (kids : Kids) (ot : Table)
    (G : GoodGraph nodes kids) (OT : OTSpec nodes ot)
    (hLen : ∀ nd ∈ nodes, LenOk nd) (fuel : Nat)
    (hBG : ∀ (a : List Node) (node : Node) (b : List Node) (st : BPState),
      nodes = a ++ node :: b → b.length < fuel →
      BPInv nodes kids ot st →
      ∃ g st', build_grad nodes kids ot fuel node st = Except.ok (g, st') ∧
        BPInv nodes kids ot st' ∧
        tlookup (specTable nodes kids ot) node.name = some g ∧
        tlookup st'.og node.name = some g ∧
        (∀ nm v, tlookup st.og nm = some v → tlookup st'.og nm = some v) ∧
        (∀ nm, nm ∈ tkeys st'.og →
          nm ∈ tkeys st.og ∨ nm = node.name ∨ nm ∈ nodeNames b)) :
    ∀ (cs : List String) (a : List Node) (node : Node) (b : List Node)
      (st : BPState),
      nodes = a ++ node :: b → b.length ≤ fuel →
      BPInv nodes kids ot st →
      (∀ c ∈ cs, c ∈ kidsOf kids node.name) →
      ∃ gs st',
        consumerLoop nodes ot (build_grad nodes kids ot fuel) node cs st =
          Except.ok (gs, st') ∧
        BPInv nodes kids ot st' ∧
        gs = cs.map (contribOf nodes ot (specTable nodes kids ot) node.name) ∧
        (∀ nm v, tlookup st.og nm = some v → tlookup st'.og nm = some v) ∧
        (∀ nm, nm ∈ tkeys st'.og → nm ∈ tkeys st.og ∨ nm ∈ nodeNames b) := by
  intro cs
  induction cs with
  | nil =>
    intro a node b st hco hlen hInv hsub
    exact ⟨[], st, rfl, hInv, rfl, fun _ _ h => h, fun nm h => Or.inl h⟩
  | cons cnm rest ih =>
    intro a node b st hco hlen hInv hsub
    have hc : cnm ∈ kidsOf kids node.name := hsub cnm (List.mem_cons_self _ _)
    obtain ⟨q, b', cnode, hdec, hcn, hp, hcm, hfind⟩ :=
      consumer_step nodes kids G a node b hco cnm hc
    have hpne : cnode.parents ≠ [] := by
      intro h0
      rw [h0] at hp
      cases hp
    obtain ⟨o, hop⟩ := consumer_op nodes kids G cnode hcm hpne
    obtain ⟨idx, hidxr⟩ := findIdx?_of_mem (PObj.node node.name) cnode.parents hp
    have hidx : indexOfNode node.name cnode.parents = some idx := hidxr
    obtain ⟨hidxlt, _⟩ := findIdx?_spec _ cnode.parents idx (PObj.strObj "") hidxr
    have hplen : cnode.parents.length = o.num_inputs := by
      have ha := G.arity cnode hcm
      rw [hop] at ha
      exact ha
    have hactlen : (actsOf ot cnode).length = o.num_inputs := by
      rw [actsOf, List.length_map]
      exact hplen
    have hidxo : idx < o.num_inputs := hplen ▸ hidxlt
    obtain ⟨sv, hsv⟩ : ∃ v, tlookup (specTable nodes kids ot) cnm = some v := by
      refine (specTable_mem nodes kids ot G.nodup cnm).mpr ?_
      rw [← hcn]
      exact List.mem_map_of_mem _ hcm
    have hgetD : (tlookup (specTable nodes kids ot) cnm).getD default = sv := by
      rw [hsv]
      rfl
    have hpslen : (pgSpec nodes kids ot cnm).length = o.num_inputs := by
      rw [pgSpec_eq nodes kids ot cnm cnode o hfind hop]
      exact hLen cnode hcm o hop _ _ hactlen
    cases hpgq : (st.pg.find? (fun e => e.1 = cnode.name)).map (fun e => e.2) with
    | some grads =>
      have hgr : grads = pgSpec nodes kids ot cnm :=
        hInv.2.2.2 cnm grads (hcn ▸ hpgq)
      have hlt : idx < grads.length := by
        rw [hgr, hpslen]
        exact hidxo
      have hstep := consumerLoop_cons_cached nodes ot
        (build_grad nodes kids ot fuel) node cnm rest st cnode idx grads
        hfind hidx hpgq hlt
      obtain ⟨gs, st', hcl, hInv', hgs, hmono, hkeys⟩ :=
        ih a node b st hco hlen hInv
          (fun c hcr => hsub c (List.mem_cons_of_mem _ hcr))
      refine ⟨grads.get ⟨idx, hlt⟩ :: gs, st', ?_, hInv', ?_, hmono, hkeys⟩
      · rw [hstep]
        simp only [hcl, except_bind_ok]
      · rw [List.map_cons, ← hgs]
        congr 1
        rw [contribOf_eq nodes ot (specTable nodes kids ot) node.name cnm
          cnode o idx hfind hop hidx,
          ← pgSpec_eq nodes kids ot cnm cnode o hfind hop, ← hgr]
        exact get_eq_getD grads idx hlt
    | none =>
      have hco2 : nodes = (a ++ node :: q) ++ cnode :: b' := by
        rw [hco, hdec]
        simp
      have hparents : ∀ p ∈ cnode.parents, ∃ nm, p = PObj.node nm ∧
          ∃ t, tlookup ot nm = some t := by
        intro p hpp
        obtain ⟨nm, hpe, hmem⟩ := G.sorted (a ++ node :: q) cnode b' hco2 p hpp
        refine ⟨nm, hpe, ?_⟩
        refine (OT.cov nm).mpr ?_
        rw [hco2, nodeNames_append]
        exact List.mem_append_left _ hmem
      have hacts : cnode.parents.mapM (fun p =>
          match p with
          | PObj.node nm =>
            match tlookup ot nm with
            | some t => Except.ok t
            | none => Except.error Err.keyError
          | PObj.strObj _ => Except.error Err.attributeError) =
          Except.ok (actsOf ot cnode) :=
        gatherActs_ok ot cnode.parents hparents
      have hblen' : b'.length < fuel := by
        have hb : b.length = q.length + (b'.length + 1) := by
          rw [hdec]
          simp
        omega
      obtain ⟨cog, st₁, hbg, hInv₁, hspecg, hogc, hmono₁, hkeys₁⟩ :=
        hBG (a ++ node :: q) cnode b' st hco2 hblen' hInv
      have hcog : cog = sv := by
        rw [hcn] at hspecg
        rw [hspecg] at hsv
        exact Option.some.inj hsv
      have hlt : idx < (o.backward cog (actsOf ot cnode)).length := by
        rw [hLen cnode hcm o hop cog _ hactlen]
        exact hidxo
      have hstep := consumerLoop_cons_fresh nodes ot
        (build_grad nodes kids ot fuel) node cnm rest st cnode idx o cog st₁
        hfind hidx hpgq hacts hbg hop hlt
        ⟨pginsert st₁.pg cnode.name (o.backward cog (actsOf ot cnode)), st₁.og⟩
        rfl
      have hInv₂ : BPInv nodes kids ot
          ⟨pginsert st₁.pg cnode.name (o.backward cog (actsOf ot cnode)),
            st₁.og⟩ := by
        refine ⟨hInv₁.1, hInv₁.2.1, hInv₁.2.2.1, ?_⟩
        intro cnm' gs hfq
        by_cases hcnm' : cnm' = cnode.name
        · subst hcnm'
          rw [pgfind_pginsert_self] at hfq
          injection hfq with hfq'
          rw [← hfq', hcn,
            pgSpec_eq nodes kids ot cnm cnode o hfind hop, hgetD, hcog]
        · rw [pg2_pginsert_other st₁.pg cnode.name cnm' _ hcnm'] at hfq
          exact hInv₁.2.2.2 cnm' gs hfq
      obtain ⟨gs, st', hcl, hInv', hgs, hmono', hkeys'⟩ :=
        ih a node b
          ⟨pginsert st₁.pg cnode.name (o.backward cog (actsOf ot cnode)),
            st₁.og⟩
          hco hlen hInv₂ (fun c hcr => hsub c (List.mem_cons_of_mem _ hcr))
      refine ⟨(o.backward cog (actsOf ot cnode)).get ⟨idx, hlt⟩ :: gs, st',
        ?_, hInv', ?_, ?_, ?_⟩
      · rw [hstep]
        simp only [hcl, except_bind_ok]
      · rw [List.map_cons, ← hgs]
        congr 1
        rw [contribOf_eq nodes ot (specTable nodes kids ot) node.name cnm
          cnode o idx hfind hop hidx, hgetD, ← hcog]
        exact get_eq_getD _ idx hlt
      · intro nm v hv
        exact hmono' nm v (hmono₁ nm v hv)
      · intro nm hm
        rcases hkeys' nm hm with h1 | h2
        · rcases hkeys₁ nm h1 with h3 | h4 | h5
          · exact Or.inl h3
          · right
            rw [hdec, nodeNames_append, nodeNames_cons]
            rw [h4]
            exact List.mem_append_right _ (List.mem_cons_self _ _)
          · right
            rw [hdec, nodeNames_append, nodeNames_cons]
            exact List.mem_append_right _ (List.mem_cons_of_mem _ h5)
        · exact Or.inr h2

/-- Correctness of `build_grad`: with fuel exceeding the number of nodes after the current one it succeeds, returns the spec table's gradient for the node, records it, and preserves the invariant; the output-gradient table grows only with the node itself and nodes after it. -/
theorem build_grad_ok (nodes : List Node) (kids : Kids) (ot : Table)
    (G : GoodGraph nodes kids) (OT : OTSpec nodes ot)
    (hLen : ∀ nd ∈ nodes, LenOk nd) :
    ∀ (fuel : Nat) (a : List Node) (node : Node) (b : List Node)
      (st : BPState),
      nodes = a ++ node :: b → b.length < fuel →
      BPInv nodes kids ot st →
      ∃ g st', build_grad nodes kids ot fuel node st = Except.ok (g, st') ∧
        BPInv nodes kids ot st' ∧
        tlookup (specTable nodes kids ot) node.name = some g ∧
        tlookup st'.og node.name = some g ∧
        (∀ nm v, tlookup st.og nm = some v → tlookup st'.og nm = some v) ∧
        (∀ nm, nm ∈ tkeys st'.og →
          nm ∈ tkeys st.og ∨ nm = node.name ∨ nm ∈ nodeNames b) := by
  intro fuel
  induction fuel with
  | zero =>
    intro a node b st _ hlen
    omega
  | succ fuel ih =>
    intro a node b st hco hlen hInv
    cases hmemo : tlookup st.og node.name with
    | some g =>
      refine ⟨g, st, ?_, hInv, hInv.2.1 node.name g hmemo, hmemo,
        fun _ _ h => h, fun nm h => Or.inl h⟩
      simp only [build_grad, hmemo]
    | none =>
      have hnotsink : ¬((kidsOf kids node.name).isEmpty = true) := by
        intro hemp
        obtain ⟨v, hv⟩ := hInv.2.2.1 node (by rw [hco]; simp) hemp
        rw [hmemo] at hv
        cases hv
      have hkne : kidsOf kids node.name ≠ [] := by
        intro h0
        exact hnotsink (by rw [h0]; rfl)
      obtain ⟨gs, st', hcl, hInv', hgs, hmono, hkeys⟩ :=
        consumerLoop_ok nodes kids ot G OT hLen fuel ih
          (kidsOf kids node.name) a node b st hco (Nat.lt_succ_iff.mp hlen)
          hInv (fun c hc => hc)
      have hgsne : gs ≠ [] := by
        rw [hgs]
        intro h0
        have hl := congrArg List.length h0
        rw [List.length_map] at hl
        exact hkne (List.length_eq_zero.mp hl)
      have hred := reduceSum_eq_dsum gs hgsne
      have hspec : tlookup (specTable nodes kids ot) node.name =
          some (dsum gs) := by
        rw [specTable_recurrence nodes kids ot G node (by rw [hco]; simp)]
        congr 1
        unfold specVal
        rw [if_neg hnotsink, hgs]
      have hfresh : node.name ∉ tkeys st'.og := by
        intro hmem
        rcases hkeys node.name hmem with h1 | h2
        · exact absurd h1 ((tlookup_eq_none_iff st.og node.name).mp hmemo)
        · have hnd := G.nodup
          rw [hco, nodeNames_append, nodeNames_cons] at hnd
          have h3 := (List.nodup_append.mp hnd).2.1
          rw [List.nodup_cons] at h3
          exact h3.1 h2
      refine ⟨dsum gs, ⟨st'.pg, tinsert st'.og node.name (dsum gs)⟩, ?_, ?_,
        hspec, ?_, ?_, ?_⟩
      · simp only [build_grad, hmemo, hcl, except_bind_ok, hred]
      · refine ⟨?_, ?_, ?_, hInv'.2.2.2⟩
        · show (tkeys (tinsert st'.og node.name (dsum gs))).Nodup
          rw [tkeys_tinsert_fresh st'.og node.name _ hfresh]
          refine List.Nodup.append hInv'.1 (List.nodup_singleton _) ?_
          intro x hx hxk
          rw [List.mem_singleton] at hxk
          subst hxk
          exact hfresh hx
        · intro nm v hv
          by_cases hnm : nm = node.name
          · subst hnm
            rw [show (BPState.mk st'.pg
                (tinsert st'.og node.name (dsum gs))).og =
              tinsert st'.og node.name (dsum gs) from rfl,
              tlookup_tinsert_self] at hv
            injection hv with h
            rw [← h]
            exact hspec
          · rw [show (BPState.mk st'.pg
                (tinsert st'.og node.name (dsum gs))).og =
              tinsert st'.og node.name (dsum gs) from rfl,
              tlookup_tinsert_other st'.og node.name nm _ hnm] at hv
            exact hInv'.2.1 nm v hv
        · intro n hn hemp
          obtain ⟨v, hv⟩ := hInv'.2.2.1 n hn hemp
          by_cases hnm : n.name = node.name
          · exact ⟨dsum gs, by
              show tlookup (tinsert st'.og node.name (dsum gs)) n.name = _
              rw [hnm, tlookup_tinsert_self]⟩
          · exact ⟨v, by
              show tlookup (tinsert st'.og node.name (dsum gs)) n.name = _
              rw [tlookup_tinsert_other st'.og node.name n.name _ hnm]
              exact hv⟩
      · show tlookup (tinsert st'.og node.name (dsum gs)) node.name = _
        rw [tlookup_tinsert_self]
      · intro nm v hv
        by_cases hnm : nm = node.name
        · subst hnm
          rw [hmemo] at hv
          cases hv
        · show tlookup (tinsert st'.og node.name (dsum gs)) nm = some v
          rw [tlookup_tinsert_other st'.og node.name nm _ hnm]
          exact hmono nm v hv
      · intro nm hm
        rw [show (BPState.mk st'.pg
            (tinsert st'.og node.name (dsum gs))).og =
          tinsert st'.og node.name (dsum gs) from rfl,
          tkeys_tinsert_fresh st'.og node.name _ hfresh] at hm
        rcases List.mem_append.mp hm with h1 | h2
        · rcases hkeys nm h1 with ha | hb
          · exact Or.inl ha
          · exact Or.inr (Or.inr hb)
        · exact Or.inr (Or.inl (List.mem_singleton.mp h2))

/-- A consumer's contribution depends on the gradient table only through the consumer's entry. -/
theorem contribOf_congr (nodes : List Node) (ot tbl₁ tbl₂ : Table)
    (nm cnm : String) (h : tlookup tbl₁ cnm = tlookup tbl₂ cnm) :
    contribOf nodes ot tbl₁ nm cnm = contribOf nodes ot tbl₂ nm cnm := by
  unfold contribOf
  rw [h]

/-- The sink-seeding fold of `backprop`: it succeeds on covered activations and seeds exactly the given nodes with all-ones tensors of their activation shapes. -/
theorem seed_fold_ok (ot : Table) :
    ∀ (l : List Node) (og : Table),
      (∀ n ∈ l, ∃ t, tlookup ot n.name = some t) →
      (tkeys og ++ nodeNames l).Nodup →
      ∃ og', l.foldlM
        (fun og n =>
          match tlookup ot n.name with
          | some t => Except.ok (tinsert og n.name (Tensor.ones t.shape))
          | none => Except.error Err.keyError) og = Except.ok og' ∧
        tkeys og' = tkeys og ++ nodeNames l ∧
        (∀ nm, nm ∉ nodeNames l → tlookup og' nm = tlookup og nm) ∧
        (∀ n ∈ l, tlookup og' n.name =
          some (Tensor.ones ((tlookup ot n.name).getD default).shape)) := by
  intro l
  induction l with
  | nil =>
    intro og _ _
    refine ⟨og, rfl, by simp [nodeNames], fun _ _ => rfl, fun n hn => absurd hn
      (List.not_mem_nil n)⟩
  | cons n l ih =>
    intro og hcov hnd
    obtain ⟨t, ht⟩ := hcov n (List.mem_cons_self _ _)
    rw [nodeNames_cons] at hnd
    have hfresh : n.name ∉ tkeys og := by
      intro hmem
      exact (List.nodup_append.mp hnd).2.2 hmem (by simp)
    have hnl : n.name ∉ nodeNames l := by
      have h2 := (List.nodup_append.mp hnd).2.1
      rw [List.nodup_cons] at h2
      exact h2.1
    have hkeys₁ : tkeys (tinsert og n.name (Tensor.ones t.shape)) =
        tkeys og ++ [n.name] := tkeys_tinsert_fresh og n.name _ hfresh
    obtain ⟨og', hfold, hkeys', hstab, hmemvals⟩ :=
      ih (tinsert og n.name (Tensor.ones t.shape))
        (fun m hm => hcov m (List.mem_cons_of_mem _ hm))
        (by rw [hkeys₁, List.append_assoc]; simpa using hnd)
    refine ⟨og', ?_, ?_, ?_, ?_⟩
    · simp only [List.foldlM_cons, ht, except_bind_ok]
      exact hfold
    · rw [hkeys', hkeys₁, List.append_assoc, nodeNames_cons]
      rfl
    · intro nm hnm
      rw [nodeNames_cons, List.mem_cons] at hnm
      push_neg at hnm
      rw [hstab nm hnm.2]
      exact tlookup_tinsert_other og n.name nm _ hnm.1
    · intro m hm
      rcases List.mem_cons.mp hm with rfl | hml
      · rw [hstab m.name hnl, tlookup_tinsert_self, ht]
        rfl
      · exact hmemvals m hml

/-- The main fold of `backprop` over all nodes: every node ends up with an output-gradient entry and the invariant is preserved. -/
theorem main_fold_ok (nodes : List Node) (kids : Kids) (ot : Table)
    (G : GoodGraph nodes kids) (OT : OTSpec nodes ot)
    (hLen : ∀ nd ∈ nodes, LenOk nd) :
    ∀ (l : List Node) (st : BPState), (∀ n ∈ l, n ∈ nodes) →
      BPInv nodes kids ot st →
      ∃ st', l.foldlM
        (fun st n => do
          let (_, st') ← build_grad nodes kids ot (nodes.length + 1) n st
          Except.ok st') st = Except.ok st' ∧
        BPInv nodes kids ot st' ∧
        (∀ nm v, tlookup st.og nm = some v → tlookup st'.og nm = some v) ∧
        (∀ n ∈ l, ∃ v, tlookup st'.og n.name = some v) := by
  intro l
  induction l with
  | nil =>
    intro st _ hInv
    exact ⟨st, rfl, hInv, fun _ _ h => h, fun n hn => absurd hn
      (List.not_mem_nil n)⟩
  | cons n l ih =>
    intro st hmem hInv
    have hn : n ∈ nodes := hmem n (List.mem_cons_self _ _)
    obtain ⟨a, b, hco⟩ := List.append_of_mem hn
    have hlen : b.length < nodes.length + 1 := by
      have hl := congrArg List.length hco
      rw [List.length_append, List.length_cons] at hl
      omega
    obtain ⟨g, st₁, hbg, hInv₁, _, hog₁, hmono₁, _⟩ :=
      build_grad_ok nodes kids ot G OT hLen (nodes.length + 1) a n b st hco
        hlen hInv
    obtain ⟨st', hfold, hInv', hmono', hcov'⟩ :=
      ih st₁ (fun m hm => hmem m (List.mem_cons_of_mem _ hm)) hInv₁
    refine ⟨st', ?_, hInv', ?_, ?_⟩
    · simp only [List.foldlM_cons, hbg, except_bind_ok]
      exact hfold
    · intro nm v hv
      exact hmono' nm v (hmono₁ nm v hv)
    · intro m hm
      rcases List.mem_cons.mp hm with rfl | hml
      · exact ⟨g, hmono' m.name g hog₁⟩
      · exact hcov' m hml

/-- `backprop` on a finalized graph with a full activation table: it succeeds and returns a gradient table with unique keys covering exactly the node names, agreeing pointwise with the spec table. -/
theorem backprop_ok (nodes : List Node) (kids : Kids) (ot : Table)
    (G : GoodGraph nodes kids) (OT : OTSpec nodes ot)
    (hLen : ∀ nd ∈ nodes, LenOk nd) :
    ∃ gt, backprop nodes kids ot = Except.ok gt ∧
      (tkeys gt).Nodup ∧
      (∀ nm, nm ∈ tkeys gt ↔ nm ∈ nodeNames nodes) ∧
      (∀ nm v, tlookup gt nm = some v →
        tlookup (specTable nodes kids ot) nm = some v) := by
  have hsinkcov : ∀ n ∈ nodes.filter (fun n => (kidsOf kids n.name).isEmpty),
      ∃ t, tlookup ot n.name = some t := by
    intro n hn
    exact (OT.cov n.name).mpr
      (List.mem_map_of_mem _ (List.mem_of_mem_filter hn))
  have hsinknd0 :
      (nodeNames (nodes.filter (fun n => (kidsOf kids n.name).isEmpty))).Nodup :=
    List.Nodup.sublist (List.Sublist.map _ (List.filter_sublist nodes)) G.nodup
  have hsinknd : (tkeys ([] : Table) ++
      nodeNames (nodes.filter (fun n => (kidsOf kids n.name).isEmpty))).Nodup := by
    rw [show tkeys ([] : Table) = [] from rfl, List.nil_append]
    exact hsinknd0
  obtain ⟨og₀, hseed, hkeys₀, hstab₀, hvals₀⟩ :=
    seed_fold_ok ot (nodes.filter (fun n => (kidsOf kids n.name).isEmpty)) []
      hsinkcov hsinknd
  rw [show tkeys ([] : Table) = [] from rfl, List.nil_append] at hkeys₀
  have hInv₀ : BPInv nodes kids ot ⟨[], og₀⟩ := by
    refine ⟨?_, ?_, ?_, ?_⟩
    · show (tkeys og₀).Nodup
      rw [hkeys₀]
      exact hsinknd0
    · intro nm v hv
      have hmem : nm ∈ tkeys og₀ := (tlookup_isSome_iff og₀ nm).mp ⟨v, hv⟩
      rw [hkeys₀] at hmem
      obtain ⟨n, hnfil, hname⟩ := List.mem_map.mp hmem
      have hnmem : n ∈ nodes := List.mem_of_mem_filter hnfil
      have hsink : (kidsOf kids n.name).isEmpty = true :=
        (List.mem_filter.mp hnfil).2
      have hval := hvals₀ n hnfil
      rw [hname] at hval
      rw [hval] at hv
      have hveq := Option.some.inj hv
      rw [← hname] at hveq ⊢
      rw [specTable_recurrence nodes kids ot G n hnmem]
      congr 1
      unfold specVal
      rw [if_pos hsink]
      exact hveq
    · intro n hn hemp
      exact ⟨_, hvals₀ n (List.mem_filter.mpr ⟨hn, hemp⟩)⟩
    · intro cnm gs h
      cases h
  obtain ⟨st', hfold, hInv', hmono', hcov'⟩ :=
    main_fold_ok nodes kids ot G OT hLen nodes ⟨[], og₀⟩ (fun _ hn => hn) hInv₀
  refine ⟨st'.og, ?_, hInv'.1, ?_, hInv'.2.1⟩
  · simp only [backprop, hseed, except_bind_ok, hfold]
  · intro nm
    constructor
    · intro hmem
      obtain ⟨v, hv⟩ := (tlookup_isSome_iff st'.og nm).mpr hmem
      exact (specTable_mem nodes kids ot G.nodup nm).mp
        ⟨v, hInv'.2.1 nm v hv⟩
    · intro hmem
      obtain ⟨n, hnmem, hname⟩ := List.mem_map.mp hmem
      obtain ⟨v, hv⟩ := hcov' n hnmem
      rw [hname] at hv
      exact (tlookup_isSome_iff st'.og nm).mp ⟨v, hv⟩

/-- `Graph.done` on a well-built graph yields a node order and children map with the properties the propagation engine relies on (`GoodGraph`). -/
theorem done_goodGraph (g : Graph)
    (hnd : (nodeNames g.nodes).Nodup)
    (hpb : parentsBack [] g.nodes = true)
    (hparam : g.nodes.filter (fun n => n.parents.isEmpty) ≠ [])
    (harity : g.nodes.all
      (fun nd => nd.parents.length == nd.op.num_inputs) = true) :
    ∃ g' kids, g.done = Except.ok g' ∧
      g'.kids = some kids ∧
      g'.parameter_nodes = some (g.nodes.filter (fun n => n.parents.isEmpty)) ∧
      g'.output_table = g.output_table ∧
      g.nodes.Perm g'.nodes ∧
      (∀ n ∈ g.nodes.filter (fun n => n.parents.isEmpty), n.parents = []) ∧
      GoodGraph g'.nodes kids := by
  have hclean := parentsBack_clean [] g.nodes hpb
  obtain ⟨kids, huc, hkids⟩ := update_children_spec g.nodes hclean
  have hrank := insRank_lt_of_child g.nodes kids hnd hpb hkids
  obtain ⟨internal, hsort, hperm, hpw⟩ :=
    topological_sort_spec g.nodes kids (insRank g.nodes) hrank hparam
  set params := g.nodes.filter (fun n => n.parents.isEmpty) with hparams
  have hdone : g.done = Except.ok { g with
      nodes := params ++ internal
      parameter_nodes := some params
      kids := some kids } := by
    unfold Graph.done
    rw [huc, except_bind_ok, hsort, except_bind_ok]
  have hpermall : g.nodes.Perm (params ++ internal) := by
    have hfp : (params ++ g.nodes.filter (fun n => !n.parents.isEmpty)).Perm
        g.nodes := List.filter_append_perm _ g.nodes
    exact hfp.symm.trans (hperm.append_left params)
  have hndall : (nodeNames (params ++ internal)).Nodup := by
    have hmap : (nodeNames g.nodes).Perm (nodeNames (params ++ internal)) := by
      unfold nodeNames
      exact hpermall.map (fun n => n.name)
    exact hmap.nodup_iff.mp hnd
  have hparefl : ∀ n ∈ params, n.parents = [] := by
    intro n hn
    have := (List.mem_filter.mp hn).2
    simpa [List.isEmpty_iff] using this
  have hbefore : ∀ l1 n l2, internal = l1 ++ n :: l2 →
      ∀ p ∈ n.parents, ∃ nm, p = PObj.node nm ∧
        (nm ∈ nodeNames params ∨ nm ∈ nodeNames l1) := by
    intro l1 n l2 hco p hp
    have hnint : n ∈ internal := by rw [hco]; simp
    have hnfil : n ∈ g.nodes.filter (fun n => !n.parents.isEmpty) :=
      hperm.symm.subset hnint
    have hnnodes : n ∈ g.nodes := List.mem_of_mem_filter hnfil
    obtain ⟨pre, post, hsplit⟩ := List.append_of_mem hnnodes
    obtain ⟨nm, hpeq, hnmmem⟩ :=
      parentsBack_decomp pre [] n post g.nodes hsplit hpb p hp
    rw [List.nil_append] at hnmmem
    refine ⟨nm, hpeq, ?_⟩
    obtain ⟨q, hqpre, hqname⟩ := by
      simpa only [nodeNames, List.mem_map] using hnmmem
    have hqnodes : q ∈ g.nodes := by rw [hsplit]; simp [hqpre]
    by_cases hqe : q.parents.isEmpty = true
    · left
      rw [← hqname]
      exact List.mem_map_of_mem _
        (List.mem_filter.mpr ⟨hqnodes, by simpa using hqe⟩)
    · right
      have hqfil : q ∈ g.nodes.filter (fun n => !n.parents.isEmpty) :=
        List.mem_filter.mpr ⟨hqnodes, by simpa using hqe⟩
      have hqint : q ∈ internal := hperm.subset hqfil
      have hnchild : n.name ∈ kidsOf kids q.name := by
        rw [hkids q.name, if_pos (by
          rw [List.any_eq_true]
          exact ⟨q, hqnodes, by simp⟩)]
        rw [childrenSpec, List.mem_flatMap]
        refine ⟨n, hnnodes, ?_⟩
        rw [List.mem_map]
        refine ⟨p, ?_, rfl⟩
        rw [List.mem_filter]
        exact ⟨hp, by rw [hpeq, hqname]; simp⟩
      rw [hco] at hqint
      rcases List.mem_append.mp hqint with hql1 | hqcons
      · rw [← hqname]
        exact List.mem_map_of_mem _ hql1
      · exfalso
        rcases List.mem_cons.mp hqcons with rfl | hql2
        · have := hrank q hqnodes q.name hnchild ⟨q, hqnodes, rfl⟩
          exact absurd this (lt_irrefl _)
        · rw [hco] at hpw
          have hpair := (List.pairwise_append.mp hpw).2.1
          have hrel := (List.pairwise_cons.mp hpair).1 q hql2
          exact hrel n.name hnchild rfl
  refine ⟨_, kids, hdone, rfl, rfl, rfl, hpermall, hparefl, ?_, ?_, ?_, ?_⟩
  · exact hndall
  · intro a nd b hco p hp
    have hco' : params ++ internal = a ++ nd :: b := hco
    have hndm : nd ∈ params ++ internal := by rw [hco']; simp
    rcases List.mem_append.mp hndm with hpar | hint
    · rw [hparefl nd hpar] at hp
      cases hp
    · obtain ⟨l1, l2, hil⟩ := List.append_of_mem hint
      have hco2 : params ++ internal = (params ++ l1) ++ nd :: l2 := by
        rw [hil]
        simp
      obtain ⟨ha, _, _⟩ := decomp_unique (params ++ internal) hndall a b
        (params ++ l1) l2 nd nd hco' hco2 rfl
      obtain ⟨nm, hpeq, hmem⟩ := hbefore l1 nd l2 hil p hp
      refine ⟨nm, hpeq, ?_⟩
      rw [ha, nodeNames_append, List.mem_append]
      exact hmem
  · intro nm c
    rw [hkids nm]
    by_cases hany : g.nodes.any (fun n => n.name = nm) = true
    · rw [if_pos hany]
      constructor
      · intro hc
        rw [childrenSpec, List.mem_flatMap] at hc
        obtain ⟨cnode, hcm, hcmem⟩ := hc
        rw [List.mem_map] at hcmem
        obtain ⟨p, hpfil, hpname⟩ := hcmem
        rw [List.mem_filter] at hpfil
        refine ⟨cnode, hpermall.subset hcm, hpname, ?_⟩
        have hpe : p = PObj.node nm := by simpa using hpfil.2
        rw [← hpe]
        exact hpfil.1
      · rintro ⟨cnode, hcm, hcname, hpmem⟩
        rw [childrenSpec, List.mem_flatMap]
        refine ⟨cnode, hpermall.symm.subset hcm, ?_⟩
        rw [List.mem_map]
        refine ⟨PObj.node nm, ?_, hcname⟩
        rw [List.mem_filter]
        exact ⟨hpmem, by simp⟩
    · rw [if_neg hany]
      constructor
      · intro hc
        cases hc
      · rintro ⟨cnode, hcm, hcname, hpmem⟩
        exfalso
        have hcg : cnode ∈ g.nodes := hpermall.symm.subset hcm
        obtain ⟨pre, post, hsplit⟩ := List.append_of_mem hcg
        obtain ⟨nm', hpeq, hnmmem⟩ := parentsBack_decomp pre [] cnode post
          g.nodes hsplit hpb (PObj.node nm) hpmem
        have hnmeq : nm = nm' := by injection hpeq
        rw [List.nil_append] at hnmmem
        apply hany
        rw [List.any_eq_true]
        obtain ⟨q, hq, hqn⟩ := List.mem_map.mp hnmmem
        have hqg : q ∈ g.nodes := by
          rw [hsplit]
          exact List.mem_append_left _ hq
        exact ⟨q, hqg, by simp [hqn, hnmeq]⟩
  · intro nd hndm
    have hng : nd ∈ g.nodes := hpermall.symm.subset hndm
    simpa using List.all_eq_true.mp harity nd hng

/-- `Graph.forward` on a finalized graph with a complete, well-keyed parameter assignment: it succeeds, caches the activation table, and that table satisfies the forward characterization. -/
theorem forward_ok (g' : Graph) (kids : Kids) (params : List Node)
    (G : GoodGraph g'.nodes kids)
    (hpn : g'.parameter_nodes = some params)
    (hparefl : ∀ n ∈ params, n.parents = [])
    (hparamsub : ∀ n ∈ params, n ∈ g'.nodes)
    (hne : g'.nodes ≠ [])
    (ptable : List (String × Tensor))
    (hpt : ∀ n ∈ g'.nodes, n.parents = [] → ∃ v, tlookup ptable n.name = some v)
    (hkeys : ∀ e ∈ ptable, ∃ nd ∈ g'.nodes, nd.name = e.1 ∧
      nd.op.isValue = true) :
    ∃ out tbl, g'.forward ptable =
      Except.ok (out, tbl, { g' with output_table := some tbl }) ∧
      OTSpec g'.nodes tbl := by
  obtain ⟨out, tbl, hprop, hcov, hval⟩ :=
    prop_ok g'.nodes kids ptable G hne hpt hkeys
  refine ⟨out, tbl, ?_, hcov, fun n hn o ho => (hval n hn).1 o ho⟩
  have hcheck : params.all (fun p => ptable.any (fun e => e.1 = p.name)) =
      true := by
    rw [List.all_eq_true]
    intro p hp
    rw [hasKeyT_iff]
    exact (tlookup_isSome_iff ptable p.name).mp
      (hpt p (hparamsub p hp) (hparefl p hp))
  unfold Graph.forward
  rw [hpn]
  show (if params.all (fun p => ptable.any (fun e => e.1 = p.name)) = true
    then _ else Except.error Err.missingParameter) = _
  rw [if_pos hcheck, hprop, except_bind_ok]

/-- Claim C2: on a graph built through the `add` API and finalized, after a successful forward pass, `backward` assigns every node that has at least one consumer the sum, over every consumer occurrence, of the gradient component that consumer back-propagates to it through its operation's `backward` rule, the components being read off the final gradient table itself; a node consumed by two downstream nodes (diamond dependency) therefore accumulates the sum of both paths' contributions. -/
theorem backward_sums_consumer_contributions (g : Graph)
    (hnd : (nodeNames g.nodes).Nodup)
    (hpb : parentsBack [] g.nodes = true)
    (hparam : g.nodes.filter (fun n => n.parents.isEmpty) ≠ [])
    (harity : g.nodes.all
      (fun nd => nd.parents.length == nd.op.num_inputs) = true)
    (hLen : ∀ nd ∈ g.nodes, LenOk nd)
    (ptable : List (String × Tensor))
    (hpt : ∀ n ∈ g.nodes, n.parents = [] → ∃ v, tlookup ptable n.name = some v)
    (hkeys : ∀ e ∈ ptable, ∃ nd ∈ g.nodes, nd.name = e.1 ∧
      nd.op.isValue = true) :
    ∃ g' kids out tbl gfwd gt,
      g.done = Except.ok g' ∧
      g'.kids = some kids ∧
      g'.forward ptable = Except.ok (out, tbl, gfwd) ∧
      gfwd.backward = Except.ok gt ∧
      ∀ node ∈ g'.nodes, kidsOf kids node.name ≠ [] →
        tlookup gt node.name =
          some (dsum ((kidsOf kids node.name).map
            (contribOf g'.nodes tbl gt node.name))) := by
  obtain ⟨g', kids, hdone, hk, hpn, hot, hperm, hparefl, G⟩ :=
    done_goodGraph g hnd hpb hparam harity
  have hpt' : ∀ n ∈ g'.nodes, n.parents = [] →
      ∃ v, tlookup ptable n.name = some v :=
    fun n hn => hpt n (hperm.mem_iff.mpr hn)
  have hkeys' : ∀ e ∈ ptable, ∃ nd ∈ g'.nodes, nd.name = e.1 ∧
      nd.op.isValue = true := by
    intro e he
    obtain ⟨nd, hm, h1, h2⟩ := hkeys e he
    exact ⟨nd, hperm.mem_iff.mp hm, h1, h2⟩
  have hLen' : ∀ nd ∈ g'.nodes, LenOk nd :=
    fun nd hn => hLen nd (hperm.mem_iff.mpr hn)
  have hgne : g.nodes ≠ [] := by
    intro h0
    rw [h0] at hparam
    exact hparam rfl
  have hne : g'.nodes ≠ [] := by
    intro h0
    have hl := hperm.length_eq
    rw [h0] at hl
    exact hgne (List.length_eq_zero.mp hl)
  have hparamsub : ∀ n ∈ g.nodes.filter (fun n => n.parents.isEmpty),
      n ∈ g'.nodes :=
    fun n hn => hperm.mem_iff.mp (List.mem_of_mem_filter hn)
  obtain ⟨out, tbl, hfwd, OT⟩ :=
    forward_ok g' kids (g.nodes.filter (fun n => n.parents.isEmpty)) G hpn
      hparefl hparamsub hne ptable hpt' hkeys'
  have hback : Graph.backward { g' with output_table := some tbl } =
      backprop g'.nodes kids tbl := by
    unfold Graph.backward
    show (match g'.kids with
      | none => Except.error Err.typeError
      | some kids => backprop g'.nodes kids tbl) = _
    rw [hk]
  obtain ⟨gt, hbp, hndk, hcovk, hpoint⟩ :=
    backprop_ok g'.nodes kids tbl G OT hLen'
  refine ⟨g', kids, out, tbl, _, gt, hdone, hk, hfwd, by rw [hback]; exact hbp,
    ?_⟩
  intro node hn hkne
  have hnm : node.name ∈ nodeNames g'.nodes := List.mem_map_of_mem _ hn
  obtain ⟨v, hv⟩ := (tlookup_isSome_iff gt node.name).mpr
    ((hcovk node.name).mpr hnm)
  have hvspec := hpoint node.name v hv
  rw [specTable_recurrence g'.nodes kids tbl G node hn] at hvspec
  have hveq := Option.some.inj hvspec
  have hmapeq : (kidsOf kids node.name).map
      (contribOf g'.nodes tbl gt node.name) =
      (kidsOf kids node.name).map
        (contribOf g'.nodes tbl (specTable g'.nodes kids tbl) node.name) := by
    refine List.map_congr_left ?_
    intro cnm hc
    refine contribOf_congr g'.nodes tbl gt (specTable g'.nodes kids tbl)
      node.name cnm ?_
    obtain ⟨cnode, hcm, hcname, _⟩ := (G.kids_mem node.name cnm).mp hc
    have hcnm : cnm ∈ nodeNames g'.nodes := by
      rw [← hcname]
      exact List.mem_map_of_mem _ hcm
    obtain ⟨w, hw⟩ := (tlookup_isSome_iff gt cnm).mpr ((hcovk cnm).mpr hcnm)
    rw [hw, hpoint cnm w hw]
  rw [hv, hmapeq]
  congr 1
  rw [← hveq]
  unfold specVal
  rw [if_neg (by
    intro hemp
    exact hkne (List.isEmpty_iff.mp hemp))]

/-- Claim C3: finalize, then forward with a complete parameter assignment whose keys all name value nodes, then backward, yields a gradient table with exactly one entry per node of the graph (unique keys covering exactly the node names), and each entry's tensor has the same shape as that node's activation in the activation table — given every operation's backward rule returns one gradient per input with the input's shape. -/
theorem finalize_forward_backward_gradient_table (g : Graph)
    (hnd : (nodeNames g.nodes).Nodup)
    (hpb : parentsBack [] g.nodes = true)
    (hparam : g.nodes.filter (fun n => n.parents.isEmpty) ≠ [])
    (harity : g.nodes.all
      (fun nd => nd.parents.length == nd.op.num_inputs) = true)
    (hLen : ∀ nd ∈ g.nodes, LenOk nd)
    (hShape : ∀ nd ∈ g.nodes, ShapeOk nd)
    (ptable : List (String × Tensor))
    (hpt : ∀ n ∈ g.nodes, n.parents = [] → ∃ v, tlookup ptable n.name = some v)
    (hkeys : ∀ e ∈ ptable, ∃ nd ∈ g.nodes, nd.name = e.1 ∧
      nd.op.isValue = true) :
    ∃ g' out tbl gfwd gt,
      g.done = Except.ok g' ∧
      g'.forward ptable = Except.ok (out, tbl, gfwd) ∧
      gfwd.backward = Except.ok gt ∧
      (tkeys gt).Nodup ∧
      (∀ nm, nm ∈ tkeys gt ↔ nm ∈ nodeNames g.nodes) ∧
      (∀ n ∈ g.nodes, ∃ gv act, tlookup gt n.name = some gv ∧
        tlookup tbl n.name = some act ∧ gv.shape = act.shape) := by
  obtain ⟨g', kids, hdone, hk, hpn, hot, hperm, hparefl, G⟩ :=
    done_goodGraph g hnd hpb hparam harity
  have hpt' : ∀ n ∈ g'.nodes, n.parents = [] →
      ∃ v, tlookup ptable n.name = some v :=
    fun n hn => hpt n (hperm.mem_iff.mpr hn)
  have hkeys' : ∀ e ∈ ptable, ∃ nd ∈ g'.nodes, nd.name = e.1 ∧
      nd.op.isValue = true := by
    intro e he
    obtain ⟨nd, hm, h1, h2⟩ := hkeys e he
    exact ⟨nd, hperm.mem_iff.mp hm, h1, h2⟩
  have hLen' : ∀ nd ∈ g'.nodes, LenOk nd :=
    fun nd hn => hLen nd (hperm.mem_iff.mpr hn)
  have hShape' : ∀ nd ∈ g'.nodes, ShapeOk nd :=
    fun nd hn => hShape nd (hperm.mem_iff.mpr hn)
  have hgne : g.nodes ≠ [] := by
    intro h0
    rw [h0] at hparam
    exact hparam rfl
  have hne : g'.nodes ≠ [] := by
    intro h0
    have hl := hperm.length_eq
    rw [h0] at hl
    exact hgne (List.length_eq_zero.mp hl)
  have hparamsub : ∀ n ∈ g.nodes.filter (fun n => n.parents.isEmpty),
      n ∈ g'.nodes :=
    fun n hn => hperm.mem_iff.mp (List.mem_of_mem_filter hn)
  obtain ⟨out, tbl, hfwd, OT⟩ :=
    forward_ok g' kids (g.nodes.filter (fun n => n.parents.isEmpty)) G hpn
      hparefl hparamsub hne ptable hpt' hkeys'
  have hback : Graph.backward { g' with output_table := some tbl } =
      backprop g'.nodes kids tbl := by
    unfold Graph.backward
    show (match g'.kids with
      | none => Except.error Err.typeError
      | some kids => backprop g'.nodes kids tbl) = _
    rw [hk]
  obtain ⟨gt, hbp, hndk, hcovk, hpoint⟩ :=
    backprop_ok g'.nodes kids tbl G OT hLen'
  have hnamesp : ∀ nm, nm ∈ nodeNames g'.nodes ↔ nm ∈ nodeNames g.nodes := by
    intro nm
    have hmap : (nodeNames g.nodes).Perm (nodeNames g'.nodes) := by
      unfold nodeNames
      exact hperm.map (fun n => n.name)
    exact hmap.symm.mem_iff
  refine ⟨g', out, tbl, _, gt, hdone, hfwd, by rw [hback]; exact hbp, hndk,
    ?_, ?_⟩
  · intro nm
    rw [hcovk nm]
    exact hnamesp nm
  · intro n hn
    have hn' : n ∈ g'.nodes := hperm.mem_iff.mp hn
    obtain ⟨a, b, hco⟩ := List.append_of_mem hn'
    obtain ⟨v, hvspec, hvshape⟩ :=
      specTable_shape_aux g'.nodes kids tbl G OT hShape'
        (g'.nodes.length) a n b hco (by
          have hl := congrArg List.length hco
          rw [List.length_append, List.length_cons] at hl
          omega)
    obtain ⟨gv, hgv⟩ := (tlookup_isSome_iff gt n.name).mpr
      ((hcovk n.name).mpr (List.mem_map_of_mem _ hn'))
    have hgvv : gv = v := by
      have h1 := hpoint n.name gv hgv
      rw [h1] at hvspec
      exact Option.some.inj hvspec
    obtain ⟨act, hact⟩ := (OT.cov n.name).mpr (List.mem_map_of_mem _ hn')
    refine ⟨gv, act, hgv, hact, ?_⟩
    rw [hgvv, hvshape, hact]
    rfl

/-- A value node trivially satisfies the backward length contract. -/
theorem lenOk_value (nm : String) (ps : List PObj) :
    LenOk ⟨nm, NodeOp.value, ps⟩ := by
  intro o ho
  exact absurd ho (fun h => NodeOp.noConfusion h)

/-- The doubling test operation satisfies the backward length contract. -/
theorem lenOk_opDouble (nm : String) (ps : List PObj) :
    LenOk ⟨nm, NodeOp.op opDouble, ps⟩ := by
  intro o ho g args hlen
  have ho' : opDouble = o := by injection ho
  subst ho'
  cases args with
  | nil =>
    exfalso
    have h0 : 0 = 1 := hlen
    cases h0
  | cons a rest =>
    cases rest with
    | nil => rfl
    | cons b rest' =>
      exfalso
      have h2 : rest'.length + 1 + 1 = 1 := hlen
      omega

/-- The tripling test operation satisfies the backward length contract. -/
theorem lenOk_opTriple (nm : String) (ps : List PObj) :
    LenOk ⟨nm, NodeOp.op opTriple, ps⟩ := by
  intro o ho g args hlen
  have ho' : opTriple = o := by injection ho
  subst ho'
  cases args with
  | nil =>
    exfalso
    have h0 : 0 = 1 := hlen
    cases h0
  | cons a rest =>
    cases rest with
    | nil => rfl
    | cons b rest' =>
      exfalso
      have h2 : rest'.length + 1 + 1 = 1 := hlen
      omega

/-- The repository's sum operation satisfies the backward length contract. -/
theorem lenOk_OpSum (nm : String) (ps : List PObj) :
    LenOk ⟨nm, NodeOp.op OpSum, ps⟩ := by
  intro o ho g args hlen
  have ho' : OpSum = o := by injection ho
  subst ho'
  cases args with
  | nil =>
    exfalso
    have h0 : 0 = 2 := hlen
    cases h0
  | cons a rest =>
    cases rest with
    | nil =>
      exfalso
      have h1 : 1 = 2 := hlen
      cases h1
    | cons b rest' =>
      cases rest' with
      | nil => rfl
      | cons c rest'' =>
        exfalso
        have h3 : rest''.length + 1 + 1 + 1 = 2 := hlen
        omega

/-- A value node trivially satisfies the backward shape contract. -/
theorem shapeOk_value (nm : String) (ps : List PObj) :
    ShapeOk ⟨nm, NodeOp.value, ps⟩ := by
  intro o ho
  exact absurd ho (fun h => NodeOp.noConfusion h)

/-- The doubling test operation satisfies the backward shape contract. -/
theorem shapeOk_opDouble (nm : String) (ps : List PObj) :
    ShapeOk ⟨nm, NodeOp.op opDouble, ps⟩ := by
  intro o ho g args hlen hg i hi
  have ho' : opDouble = o := by injection ho
  subst ho'
  cases args with
  | nil =>
    exfalso
    have h0 : 0 = 1 := hlen
    cases h0
  | cons a rest =>
    cases rest with
    | nil =>
      have hi1 : i < 1 := hi
      have hi0 : i = 0 := by omega
      subst hi0
      exact hg
    | cons b rest' =>
      exfalso
      have h2 : rest'.length + 1 + 1 = 1 := hlen
      omega

/-- The tripling test operation satisfies the backward shape contract. -/
theorem shapeOk_opTriple (nm : String) (ps : List PObj) :
    ShapeOk ⟨nm, NodeOp.op opTriple, ps⟩ := by
  intro o ho g args hlen hg i hi
  have ho' : opTriple = o := by injection ho
  subst ho'
  cases args with
  | nil =>
    exfalso
    have h0 : 0 = 1 := hlen
    cases h0
  | cons a rest =>
    cases rest with
    | nil =>
      have hi1 : i < 1 := hi
      have hi0 : i = 0 := by omega
      subst hi0
      exact hg
    | cons b rest' =>
      exfalso
      have h2 : rest'.length + 1 + 1 = 1 := hlen
      omega

/-- A three-node chain `A -> B -> C` of unary operations. -/
def chainNodes : List Node :=
  [⟨"A", NodeOp.value, []⟩,
   ⟨"B", NodeOp.op opDouble, [PObj.node "A"]⟩,
   ⟨"C", NodeOp.op opTriple, [PObj.node "B"]⟩]

/-- The chain graph before finalization. -/
def chainGraph : Graph := { nodes := chainNodes }

/-- Every chain node satisfies the backward length contract. -/
theorem chain_lenOk : ∀ nd ∈ chainNodes, LenOk nd := by
  intro nd hm
  rcases List.mem_cons.mp hm with rfl | hm
  · exact lenOk_value "A" []
  rcases List.mem_cons.mp hm with rfl | hm
  · exact lenOk_opDouble "B" [PObj.node "A"]
  rcases List.mem_cons.mp hm with rfl | hm
  · exact lenOk_opTriple "C" [PObj.node "B"]
  cases hm

/-- Every chain node satisfies the backward shape contract. -/
theorem chain_shapeOk : ∀ nd ∈ chainNodes, ShapeOk nd := by
  intro nd hm
  rcases List.mem_cons.mp hm with rfl | hm
  · exact shapeOk_value "A" []
  rcases List.mem_cons.mp hm with rfl | hm
  · exact shapeOk_opDouble "B" [PObj.node "A"]
  rcases List.mem_cons.mp hm with rfl | hm
  · exact shapeOk_opTriple "C" [PObj.node "B"]
  cases hm

/-- Every diamond node satisfies the backward length contract. -/
theorem diamond_lenOk : ∀ nd ∈ diamondNodes, LenOk nd := by
  intro nd hm
  rcases List.mem_cons.mp hm with rfl | hm
  · exact lenOk_value "A" []
  rcases List.mem_cons.mp hm with rfl | hm
  · exact lenOk_opDouble "B" [PObj.node "A"]
  rcases List.mem_cons.mp hm with rfl | hm
  · exact lenOk_opTriple "C" [PObj.node "A"]
  rcases List.mem_cons.mp hm with rfl | hm
  · exact lenOk_OpSum "D" [PObj.node "B", PObj.node "C"]
  cases hm

/-- Claim C5 (corrected): on a finalized graph, `forward` fails with the missing-parameter error if and only if some parameter node's name has no value in the supplied assignment. The claim's second half — that extra entries are ignored — is refuted by `forward_extra_parameter_counterexample`: an extra key reaches `prop`'s assignment loop, which looks it up among the graph's nodes and raises `KeyError`. -/
theorem forward_missing_parameter (g' : Graph) (params : List Node)
    (hpn : g'.parameter_nodes = some params)
    (ptable : List (String × Tensor)) :
    g'.forward ptable = Except.error Err.missingParameter ↔
      ∃ p ∈ params, tlookup ptable p.name = none := by
  have heval : g'.forward ptable =
      (if params.all (fun p => ptable.any (fun e => e.1 = p.name)) = true
       then (do
         let (out, tbl) ← prop g'.nodes ptable
         Except.ok (out, tbl, { g' with output_table := some tbl }))
       else Except.error Err.missingParameter) := by
    unfold Graph.forward
    rw [hpn]
  rw [heval]
  by_cases hall : params.all (fun p => ptable.any (fun e => e.1 = p.name)) =
      true
  · rw [if_pos hall]
    constructor
    · intro h
      exfalso
      cases hp : prop g'.nodes ptable with
      | error e =>
        rw [hp] at h
        have h' : (Except.error e : Except Err (Tensor × Table × Graph)) =
            Except.error Err.missingParameter := h
        have he : e = Err.missingParameter := by injection h'
        rw [he] at hp
        exact prop_no_missing g'.nodes ptable hp
      | ok x =>
        rw [hp] at h
        cases x with
        | mk out tbl => exact Except.noConfusion h
    · rintro ⟨p, hp, hnone⟩
      exfalso
      have hany := List.all_eq_true.mp hall p hp
      rw [hasKeyT_iff] at hany
      obtain ⟨v, hv⟩ := (tlookup_isSome_iff ptable p.name).mpr hany
      rw [hv] at hnone
      cases hnone
  · rw [if_neg hall]
    constructor
    · intro _
      rw [List.all_eq_true] at hall
      push_neg at hall
      obtain ⟨p, hp, hcov⟩ := hall
      refine ⟨p, hp, ?_⟩
      rw [tlookup_eq_none_iff]
      intro hk
      exact hcov (by rw [hasKeyT_iff]; exact hk)
    · intro _
      rfl

/-- A single-parameter-node graph. -/
def soloGraph : Graph := { nodes := [⟨"X", NodeOp.value, []⟩] }

/-- The finalized form of `soloGraph`. -/
def soloDone : Graph :=
  { nodes := [⟨"X", NodeOp.value, []⟩],
    parameter_nodes := some [⟨"X", NodeOp.value, []⟩],
    kids := some [("X", [])] }

/-- Finalizing the one-node graph gives the expected record. -/
theorem solo_done_eq : soloGraph.done = Except.ok soloDone := by rfl

/-- Counterexample to Claim C5's second half: with every parameter node supplied, an extra entry `"Y"` makes `forward` fail with `KeyError` instead of being ignored. -/
theorem forward_extra_parameter_counterexample :
    soloGraph.done = Except.ok soloDone ∧
      soloDone.parameter_nodes = some [⟨"X", NodeOp.value, []⟩] ∧
      (∀ p ∈ [(⟨"X", NodeOp.value, []⟩ : Node)],
        ∃ v, tlookup [("X", (⟨[1], [5]⟩ : Tensor)), ("Y", ⟨[1], [7]⟩)]
          p.name = some v) ∧
      soloDone.forward [("X", ⟨[1], [5]⟩), ("Y", ⟨[1], [7]⟩)] =
        Except.error Err.keyError := by
  refine ⟨solo_done_eq, rfl, ?_, rfl⟩
  intro p hp
  rcases List.mem_cons.mp hp with rfl | hp
  · exact ⟨⟨[1], [5]⟩, rfl⟩
  · cases hp

/-- Witness for C5: the finalized one-node graph with an empty assignment fails with the missing-parameter error. -/
theorem forward_missing_parameter_witness :
    soloDone.forward [] = Except.error Err.missingParameter :=
  (forward_missing_parameter soloDone [⟨"X", NodeOp.value, []⟩] rfl []).mpr
    ⟨⟨"X", NodeOp.value, []⟩, List.mem_cons_self _ _, rfl⟩

/-- Witness for C2: the diamond graph `A -> B, A -> C, B,C -> D` satisfies the builder hypotheses, the pipeline runs end to end, and `A`'s gradient `[5, 5]` is the sum of `B`'s contribution `[2, 2]` and `C`'s contribution `[3, 3]`. -/
theorem backward_sums_consumer_contributions_witness :
    (nodeNames diamondGraph.nodes).Nodup ∧
    parentsBack [] diamondGraph.nodes = true ∧
    diamondGraph.nodes.all
      (fun nd => nd.parents.length == nd.op.num_inputs) = true ∧
    (∃ g' kids out tbl gfwd gt,
      diamondGraph.done = Except.ok g' ∧
      g'.kids = some kids ∧
      g'.forward [("A", (⟨[2], [1, 2]⟩ : Tensor))] =
        Except.ok (out, tbl, gfwd) ∧
      gfwd.backward = Except.ok gt ∧
      ∀ node ∈ g'.nodes, kidsOf kids node.name ≠ [] →
        tlookup gt node.name =
          some (dsum ((kidsOf kids node.name).map
            (contribOf g'.nodes tbl gt node.name)))) ∧
    (do
      let g' ← diamondGraph.done
      let r ← g'.forward [("A", (⟨[2], [1, 2]⟩ : Tensor))]
      r.2.2.backward : Except Err Table) =
      Except.ok [("D", ⟨[2], [1, 1]⟩), ("B", ⟨[2], [1, 1]⟩),
        ("C", ⟨[2], [1, 1]⟩), ("A", ⟨[2], [5, 5]⟩)] ∧
    (⟨[2], [5, 5]⟩ : Tensor) =
      Tensor.add ⟨[2], [2, 2]⟩ ⟨[2], [3, 3]⟩ :=
  ⟨by decide, by decide, by decide,
    backward_sums_consumer_contributions diamondGraph (by decide) (by decide)
      (fun h => absurd (congrArg List.length h) (by decide)) (by decide)
      diamond_lenOk [("A", ⟨[2], [1, 2]⟩)]
      (by
        intro n hm hp
        rcases List.mem_cons.mp hm with rfl | hm
        · exact ⟨⟨[2], [1, 2]⟩, rfl⟩
        rcases List.mem_cons.mp hm with rfl | hm
        · exact absurd hp (by decide)
        rcases List.mem_cons.mp hm with rfl | hm
        · exact absurd hp (by decide)
        rcases List.mem_cons.mp hm with rfl | hm
        · exact absurd hp (by decide)
        cases hm)
      (by
        intro e he
        rcases List.mem_cons.mp he with rfl | he
        · exact ⟨⟨"A", NodeOp.value, []⟩, List.mem_cons_self _ _, rfl, rfl⟩
        cases he),
    by rfl, by decide⟩

/-- Witness for C3: the chain graph satisfies the hypotheses and the full pipeline produces a gradient table with one shape-matching entry per node. -/
theorem finalize_forward_backward_gradient_table_witness :
    (nodeNames chainGraph.nodes).Nodup ∧
    parentsBack [] chainGraph.nodes = true ∧
    chainGraph.nodes.all
      (fun nd => nd.parents.length == nd.op.num_inputs) = true ∧
    (∃ g' out tbl gfwd gt,
      chainGraph.done = Except.ok g' ∧
      g'.forward [("A", (⟨[2], [1, 2]⟩ : Tensor))] =
        Except.ok (out, tbl, gfwd) ∧
      gfwd.backward = Except.ok gt ∧
      (tkeys gt).Nodup ∧
      (∀ nm, nm ∈ tkeys gt ↔ nm ∈ nodeNames chainGraph.nodes) ∧
      (∀ n ∈ chainGraph.nodes, ∃ gv act, tlookup gt n.name = some gv ∧
        tlookup tbl n.name = some act ∧ gv.shape = act.shape)) :=
  ⟨by decide, by decide, by decide,
    finalize_forward_backward_gradient_table chainGraph (by decide) (by decide)
      (fun h => absurd (congrArg List.length h) (by decide)) (by decide)
      chain_lenOk chain_shapeOk [("A", ⟨[2], [1, 2]⟩)]
      (by
        intro n hm hp
        rcases List.mem_cons.mp hm with rfl | hm
        · exact ⟨⟨[2], [1, 2]⟩, rfl⟩
        rcases List.mem_cons.mp hm with rfl | hm
        · exact absurd hp (by decide)
        rcases List.mem_cons.mp hm with rfl | hm
        · exact absurd hp (by decide)
        cases hm)
      (by
        intro e he
        rcases List.mem_cons.mp he with rfl | he
        · exact ⟨⟨"A", NodeOp.value, []⟩, List.mem_cons_self _ _, rfl, rfl⟩
        cases he)⟩

end CompGraph
